import Mathlib

/-!
Verification development for the Signal-Equalizer repository.

Shallow embedding conventions:
* JS numbers carrying audio samples / spectra are modelled by real numbers
  (the spec reads floating-point statements "up to rounding" as statements
  about exact real arithmetic);
* frequencies, sample rates and gains handed to the band-to-bin mapper are
  modelled by rationals so that the mapper is executable;
* arrays are lists (or, inside the in-place FFT loops, functions from
  indices), fallible functions return Except, and the module-level memo
  table of utils.ts is modelled by explicit state passing.

Sources embedded: src/utils/fft.ts, src/utils/equalizer.ts (the
range-based version), src/utils/utils.ts (the unnamed utils module) and
src/hooks/useAudioProcessor.tsx.
-/

namespace SignalEq

/-! ## utils.ts: bit reversal -/

/-- Reverse the low b bits of n (MSB of the b-bit window becomes LSB).
This is what the string-based loop body of utils.bitReverseArray computes
for one index: pad the binary string of n to b characters, reverse it,
parse it back. -/
def revBits : ℕ → ℕ → ℕ
  | 0, _ => 0
  | b + 1, n => n % 2 * 2 ^ b + revBits b (n / 2)

/-- Length of the JavaScript binary string of m, that is
(m).toString(2).length: one character for m = 0, otherwise
floor(log2 m) + 1. -/
def jsBitLen (m : ℕ) : ℕ := if m = 0 then 1 else Nat.log2 m + 1

/-- The index map tabulated by utils.bitReverseArray for size N:
each n is reversed in maxBinaryLength = (N-1).toString(2).length bits. -/
def bitRevTable (N : ℕ) : ℕ → ℕ := revBits (jsBitLen (N - 1))

/-- The table built by the loop of utils.bitReverseArray on a cache miss:
reversed[n] for n = 0 .. N-1. -/
def bitReverseCompute (N : ℕ) : List ℕ :=
  (List.range N).map (bitRevTable N)

/-- utils.bitReverseArray with the module-level memo table
(memoizedReversal) made explicit: if the table holds an entry for N it is
returned unchanged, otherwise the table is computed, stored and returned. -/
def bitReverseArray (cache : ℕ → Option (List ℕ)) (N : ℕ) :
    List ℕ × (ℕ → Option (List ℕ)) :=
  match cache N with
  | some t => (t, cache)
  | none =>
      let t := bitReverseCompute N
      (t, fun M => if M = N then some t else cache M)

/-- The memo table only ever holds honestly computed tables. -/
def CacheOK (cache : ℕ → Option (List ℕ)) : Prop :=
  ∀ M t, cache M = some t → t = bitReverseCompute M

/-! ## fft.ts: the power-of-two test -/

/-- Executable power-of-two test (for positive n). -/
def isPow2 (n : ℕ) : Bool :=
  if n = 0 then false
  else if n = 1 then true
  else if n % 2 = 1 then false
  else isPow2 (n / 2)
termination_by n
decreasing_by
  exact Nat.div_lt_self (by omega) (by omega)

/-- The length test actually performed by fft.ts:
Math.round(Math.log2 N) === Math.log2 N.  For N = 0 both sides are
-Infinity, so the (not a power of two) length 0 passes the test. -/
def jsPow2Check (n : ℕ) : Bool := n == 0 || isPow2 n

theorem isPow2_two_pow (k : ℕ) : isPow2 (2 ^ k) = true := by
  induction k with
  | zero => rw [isPow2]; norm_num
  | succ k ih =>
      rw [isPow2]
      have h1 : 2 ^ (k + 1) ≠ 0 := by positivity
      have h2 : 2 ^ (k + 1) ≠ 1 := by
        have : 2 ≤ 2 ^ (k + 1) := by
          calc 2 = 2 ^ 1 := rfl
          _ ≤ 2 ^ (k + 1) := Nat.pow_le_pow_right (by norm_num) (by omega)
        omega
      have h3 : 2 ^ (k + 1) % 2 = 0 := by
        rw [pow_succ]
        exact Nat.mul_mod_left _ 2
      have h4 : 2 ^ (k + 1) / 2 = 2 ^ k := by
        rw [pow_succ]
        exact Nat.mul_div_cancel _ (by norm_num)
      simp [h1, h2, h3, h4, ih]

theorem isPow2_iff (n : ℕ) : isPow2 n = true ↔ ∃ k, n = 2 ^ k := by
  constructor
  · induction n using Nat.strong_induction_on with
    | _ n ih =>
        intro h
        rw [isPow2] at h
        by_cases h0 : n = 0
        · simp [h0] at h
        · by_cases h1 : n = 1
          · exact ⟨0, by simp [h1]⟩
          · by_cases hodd : n % 2 = 1
            · simp [h0, h1, hodd] at h
            · simp only [h0, h1, hodd, if_false] at h
              have hlt : n / 2 < n := Nat.div_lt_self (by omega) (by omega)
              obtain ⟨k, hk⟩ := ih (n / 2) hlt h
              exact ⟨k + 1, by omega⟩
  · rintro ⟨k, rfl⟩
    exact isPow2_two_pow k

/-! ### Properties of revBits -/

theorem revBits_lt (b n : ℕ) : revBits b n < 2 ^ b := by
  induction b generalizing n with
  | zero => simp [revBits]
  | succ b ih =>
      have h1 : n % 2 ≤ 1 := by omega
      have h2 : revBits b (n / 2) < 2 ^ b := ih (n / 2)
      have : n % 2 * 2 ^ b ≤ 2 ^ b := by
        calc n % 2 * 2 ^ b ≤ 1 * 2 ^ b := Nat.mul_le_mul_right _ h1
        _ = 2 ^ b := one_mul _
      calc revBits (b + 1) n = n % 2 * 2 ^ b + revBits b (n / 2) := rfl
      _ < 2 ^ b + 2 ^ b := by omega
      _ = 2 ^ (b + 1) := by ring

theorem revBits_testBit (b : ℕ) :
    ∀ n j, j < b → (revBits b n).testBit j = n.testBit (b - 1 - j) := by
  induction b with
  | zero => omega
  | succ b ih =>
      intro n j hj
      show (n % 2 * 2 ^ b + revBits b (n / 2)).testBit j = _
      rcases Nat.lt_or_ge j b with hjb | hjb
      · have hmod : n % 2 = 0 ∨ n % 2 = 1 := by omega
        have hlow : (n % 2 * 2 ^ b + revBits b (n / 2)).testBit j
            = (revBits b (n / 2)).testBit j := by
          rcases hmod with h | h
          · rw [h]; simp
          · rw [h, one_mul]
            exact Nat.testBit_two_pow_add_gt hjb _
        rw [hlow, ih (n / 2) j hjb]
        have : n / 2 = n >>> 1 := rfl
        rw [this, Nat.testBit_shiftRight]
        congr 1
        omega
      · have hjb' : j = b := by omega
        rw [hjb']
        have hmod : n % 2 = 0 ∨ n % 2 = 1 := by omega
        have hlt : revBits b (n / 2) < 2 ^ b := revBits_lt b (n / 2)
        have htb : (revBits b (n / 2)).testBit b = false :=
          Nat.testBit_lt_two_pow hlt
        have hgoal : (n % 2 * 2 ^ b + revBits b (n / 2)).testBit b = n.testBit 0 := by
          rcases hmod with h | h
          · rw [h, zero_mul, zero_add, htb, Nat.testBit_zero]
            simp [h]
          · rw [h, one_mul, Nat.testBit_two_pow_add_eq, htb, Nat.testBit_zero]
            simp [h]
        rw [hgoal]
        congr 1
        omega

theorem revBits_revBits (b n : ℕ) (hn : n < 2 ^ b) :
    revBits b (revBits b n) = n := by
  apply Nat.eq_of_testBit_eq
  intro j
  rcases Nat.lt_or_ge j b with hj | hj
  · rw [revBits_testBit b _ j hj, revBits_testBit b n (b - 1 - j) (by omega)]
    congr 1
    omega
  · have h1 : (revBits b (revBits b n)).testBit j = false :=
      Nat.testBit_lt_two_pow (lt_of_lt_of_le (revBits_lt b _)
        (Nat.pow_le_pow_right (by norm_num) hj))
    have h2 : n.testBit j = false :=
      Nat.testBit_lt_two_pow (lt_of_lt_of_le hn
        (Nat.pow_le_pow_right (by norm_num) hj))
    rw [h1, h2]

theorem revBits_even (b m : ℕ) : revBits (b + 1) (2 * m) = revBits b m := by
  show 2 * m % 2 * 2 ^ b + revBits b (2 * m / 2) = revBits b m
  rw [Nat.mul_mod_right, Nat.mul_div_cancel_left m (by norm_num)]
  simp

theorem revBits_odd (b m : ℕ) :
    revBits (b + 1) (2 * m + 1) = 2 ^ b + revBits b m := by
  show (2 * m + 1) % 2 * 2 ^ b + revBits b ((2 * m + 1) / 2) = 2 ^ b + revBits b m
  have h1 : (2 * m + 1) % 2 = 1 := by omega
  have h2 : (2 * m + 1) / 2 = m := by omega
  rw [h1, h2, one_mul]

theorem jsBitLen_two_pow_sub_one (K : ℕ) (hK : 1 ≤ K) :
    jsBitLen (2 ^ K - 1) = K := by
  have h2 : 2 ^ K - 1 ≠ 0 := by
    have : 2 ≤ 2 ^ K := by
      calc 2 = 2 ^ 1 := rfl
      _ ≤ 2 ^ K := Nat.pow_le_pow_right (by norm_num) hK
    omega
  rw [jsBitLen, if_neg h2, Nat.log2_eq_log_two]
  have hlog : Nat.log 2 (2 ^ K - 1) = K - 1 := by
    apply Nat.log_eq_of_pow_le_of_lt_pow
    · have : 2 ^ (K - 1) < 2 ^ K := Nat.pow_lt_pow_right (by norm_num) (by omega)
      omega
    · have : K - 1 + 1 = K := by omega
      rw [this]
      omega
  omega

theorem bitRevTable_two_pow (K n : ℕ) (hn : n < 2 ^ K) :
    bitRevTable (2 ^ K) n = revBits K n := by
  rcases Nat.eq_zero_or_pos K with hK | hK
  · subst hK
    interval_cases n
    rfl
  · rw [bitRevTable, jsBitLen_two_pow_sub_one K hK]

/-! ## fft.ts and utils.ts: the complex data and the transform -/

/-- The pair of parallel number arrays used throughout fft.ts and
equalizer.ts. -/
structure ComplexArray where
  real : List ℝ
  imag : List ℝ

/-- Read a ComplexArray as a function from indices to complex samples
(a missing entry reads as 0; all embedded theorems only read indices
inside the arrays). -/
noncomputable def toSamples (s : ComplexArray) : ℕ → ℂ :=
  fun i => ⟨s.real.getD i 0, s.imag.getD i 0⟩

/-- utils.euler: e^(-2 pi i k / N), returned by the source as
(cos x, sin x) with x = (-2 * PI * kn) / N. -/
noncomputable def euler (kn N : ℕ) : ℂ :=
  Complex.exp ((((-2 : ℝ) * Real.pi * kn / N : ℝ) : ℂ) * Complex.I)

/-- The bit-reversal reordering loop of fft:
ordered[bitReversedIndices[i]] = complexSignal[i] for i = 0 .. N-1,
starting from a fresh array.  The two component arrays are handled as one
array of complex samples. -/
noncomputable def bitrevInit (N : ℕ) (x : ℕ → ℂ) : ℕ → ℂ :=
  (List.range N).foldl (fun A i => Function.update A (bitRevTable N i) (x i))
    (fun _ => 0)

/-- One butterfly of the innermost loop of fft: reads the even and odd
slots of block m at offset k, multiplies the odd one by the twiddle
factor, writes the subtraction result to the odd slot and the addition
result to the even slot (in that order, as the source does). -/
noncomputable def applyButterfly (currN k m : ℕ) (A : ℕ → ℂ) : ℕ → ℂ :=
  let currEvenIndex := currN * m + k
  let currOddIndex := currN * m + k + currN / 2
  let evenSample := A currEvenIndex
  let odd := euler k currN * A currOddIndex
  Function.update (Function.update A currOddIndex (evenSample - odd))
    currEvenIndex (evenSample + odd)

/-- The loop over blocks m = 0 .. N/currN - 1 of fft. -/
noncomputable def innerLoop (N currN k : ℕ) (A : ℕ → ℂ) : ℕ → ℂ :=
  (List.range (N / currN)).foldl (fun B m => applyButterfly currN k m B) A

/-- The loop over twiddle offsets k = 0 .. currN/2 - 1 of fft. -/
noncomputable def stageLoop (N currN : ℕ) (A : ℕ → ℂ) : ℕ → ℂ :=
  (List.range (currN / 2)).foldl (fun B k => innerLoop N currN k B) A

/-- The stage loop of fft: n = 1 .. logN with currN = 2^n. -/
noncomputable def stagesLoop (N logN : ℕ) (A : ℕ → ℂ) : ℕ → ℂ :=
  (List.range logN).foldl (fun B n => stageLoop N (2 ^ (n + 1)) B) A

/-- The whole in-place part of fft (after the validity checks):
bit-reversal reordering followed by the butterfly stages.  The number of
stages is log2 N (for N = 0 the JS stage bound -Infinity runs no stage,
matching Nat.log2 0 = 0). -/
noncomputable def fftCore (N : ℕ) (x : ℕ → ℂ) : ℕ → ℂ :=
  stagesLoop N (Nat.log2 N) (bitrevInit N x)

/-- fft of fft.ts on an explicitly complex input: the length checks, then
the core loops; errors are the thrown JS Error messages.  The test
Math.round(Math.log2 N) === Math.log2 N is jsPow2Check (N = 0 passes it
because Math.log2 0 and its rounding are both -Infinity). -/
noncomputable def fft (signal : ComplexArray) : Except String ComplexArray :=
  if jsPow2Check signal.real.length = false then
    Except.error "Input size must be a power of 2."
  else if signal.real.length ≠ signal.imag.length then
    Except.error "Real and imaginary components must have the same length."
  else
    Except.ok ⟨(List.range signal.real.length).map
        (fun i => (fftCore signal.real.length (toSamples signal) i).re),
      (List.range signal.real.length).map
        (fun i => (fftCore signal.real.length (toSamples signal) i).im)⟩

/-- utils.constructComplexArray on a plain real signal: copy of the
signal along a zero imaginary buffer of the same length. -/
def constructComplexArray (signal : List ℝ) : ComplexArray :=
  ⟨signal, List.replicate signal.length 0⟩

/-- fft applied to a plain real array (the number[] branch of fft.ts). -/
noncomputable def fftReal (signal : List ℝ) : Except String ComplexArray :=
  fft (constructComplexArray signal)

/-- ifft of fft.ts: conjugate every sample, run the forward transform,
divide every output component by N.  (The source never conjugates the
output again.) -/
noncomputable def ifft (signal : ComplexArray) : Except String ComplexArray :=
  (fft ⟨(List.range signal.real.length).map (fun i => signal.real.getD i 0),
        (List.range signal.real.length).map (fun i => -(signal.imag.getD i 0))⟩).map
    (fun X => ⟨X.real.map (fun v => v / (signal.real.length : ℝ)),
               X.imag.map (fun v => v / (signal.real.length : ℝ))⟩)

/-! ## Reference transforms (textbook definitions used by the spec) -/

/-- The textbook discrete Fourier transform:
X[j] = sum over i of x[i] e^(-2 pi i_unit i j / N). -/
noncomputable def dft (N : ℕ) (x : ℕ → ℂ) (j : ℕ) : ℂ :=
  ∑ i ∈ Finset.range N, x i * euler (i * j) N

/-- Modelled from the spec: the textbook inverse DFT the spec compares
ifft against: x[n] = (1/N) sum over k of X[k] e^(+2 pi i_unit k n / N). -/
noncomputable def idft (N : ℕ) (X : ℕ → ℂ) (n : ℕ) : ℂ :=
  (∑ k ∈ Finset.range N,
    X k * Complex.exp ((((2 : ℝ) * Real.pi * (k * n) / N : ℝ) : ℂ) * Complex.I)) / N

/-! ## Twiddle-factor identities -/

theorem euler_zero (N : ℕ) : euler 0 N = 1 := by
  unfold euler
  push_cast
  simp

theorem euler_add (a b N : ℕ) : euler (a + b) N = euler a N * euler b N := by
  unfold euler
  rw [← Complex.exp_add]
  congr 1
  push_cast
  ring

theorem euler_double (a N : ℕ) : euler (2 * a) (2 * N) = euler a N := by
  unfold euler
  have h : ((-2 : ℝ) * Real.pi * ((2 * a : ℕ) : ℝ) / ((2 * N : ℕ) : ℝ))
      = (-2 : ℝ) * Real.pi * ((a : ℕ) : ℝ) / ((N : ℕ) : ℝ) := by
    push_cast
    rw [show (-2 : ℝ) * Real.pi * (2 * (a : ℝ)) = 2 * ((-2) * Real.pi * a) by ring]
    exact mul_div_mul_left _ _ (by norm_num)
  rw [h]

theorem euler_mul_base (a N : ℕ) : euler (N * a) N = 1 := by
  rcases Nat.eq_zero_or_pos N with hN | hN
  · subst hN
    simpa using euler_zero 0
  · unfold euler
    have hN' : (N : ℝ) ≠ 0 := by positivity
    have h : ((-2 : ℝ) * Real.pi * ((N * a : ℕ) : ℝ) / ((N : ℕ) : ℝ))
        = ((-(a : ℤ) : ℤ) : ℝ) * (2 * Real.pi) := by
      push_cast
      field_simp
      ring
    rw [h]
    have key := Complex.exp_int_mul_two_pi_mul_I (-(a : ℤ))
    rw [← key]
    congr 1
    push_cast
    ring

theorem euler_half (s : ℕ) : euler (2 ^ s) (2 ^ (s + 1)) = -1 := by
  unfold euler
  have h2 : ((2 : ℝ) ^ s) ≠ 0 := by positivity
  have h : ((-2 : ℝ) * Real.pi * ((2 ^ s : ℕ) : ℝ) / ((2 ^ (s + 1) : ℕ) : ℝ))
      = -Real.pi := by
    push_cast
    rw [pow_succ]
    field_simp
    ring
  rw [h]
  rw [show ((-Real.pi : ℝ) : ℂ) * Complex.I = -((Real.pi : ℂ) * Complex.I) by
    push_cast; ring]
  rw [Complex.exp_neg, Complex.exp_pi_mul_I]
  norm_num

/-! ## Splitting a length-2c sum into even and odd indices -/

theorem sum_range_two_mul (c : ℕ) (f : ℕ → ℂ) :
    ∑ j ∈ Finset.range (2 * c), f j
      = (∑ j ∈ Finset.range c, f (2 * j)) + ∑ j ∈ Finset.range c, f (2 * j + 1) := by
  induction c with
  | zero => simp
  | succ c ih =>
      have h1 : 2 * (c + 1) = 2 * c + 1 + 1 := by ring
      rw [h1, Finset.sum_range_succ, Finset.sum_range_succ, ih,
        Finset.sum_range_succ, Finset.sum_range_succ]
      ring

/-! ## The decimation-in-time combination step -/

theorem dit_combine_even (s st r k : ℕ) (x : ℕ → ℂ) :
    (∑ j ∈ Finset.range (2 ^ s), x (2 * st * j + r) * euler (j * k) (2 ^ s))
      + euler k (2 ^ (s + 1)) *
        ∑ j ∈ Finset.range (2 ^ s), x (2 * st * j + st + r) * euler (j * k) (2 ^ s)
      = ∑ j ∈ Finset.range (2 ^ (s + 1)), x (st * j + r) * euler (j * k) (2 ^ (s + 1)) := by
  have h2 : (2 : ℕ) ^ (s + 1) = 2 * 2 ^ s := by ring
  rw [h2, sum_range_two_mul]
  congr 1
  · apply Finset.sum_congr rfl
    intro j hj
    have he : euler (2 * j * k) (2 * 2 ^ s) = euler (j * k) (2 ^ s) := by
      rw [show 2 * j * k = 2 * (j * k) by ring]
      exact euler_double (j * k) (2 ^ s)
    rw [show st * (2 * j) = 2 * st * j by ring, he]
  · rw [Finset.mul_sum]
    apply Finset.sum_congr rfl
    intro j hj
    have he : euler ((2 * j + 1) * k) (2 * 2 ^ s)
        = euler k (2 * 2 ^ s) * euler (j * k) (2 ^ s) := by
      rw [show (2 * j + 1) * k = k + 2 * (j * k) by ring, euler_add,
        euler_double (j * k) (2 ^ s)]
    rw [show st * (2 * j + 1) + r = 2 * st * j + st + r by ring, he]
    rw [show (2 : ℕ) * 2 ^ s = 2 ^ (s + 1) by ring]
    ring

theorem dit_combine_odd (s st r k : ℕ) (x : ℕ → ℂ) :
    (∑ j ∈ Finset.range (2 ^ s), x (2 * st * j + r) * euler (j * k) (2 ^ s))
      - euler k (2 ^ (s + 1)) *
        ∑ j ∈ Finset.range (2 ^ s), x (2 * st * j + st + r) * euler (j * k) (2 ^ s)
      = ∑ j ∈ Finset.range (2 ^ (s + 1)),
          x (st * j + r) * euler (j * (k + 2 ^ s)) (2 ^ (s + 1)) := by
  have h2 : (2 : ℕ) ^ (s + 1) = 2 * 2 ^ s := by ring
  rw [h2, sum_range_two_mul]
  have heven : ∀ j : ℕ, euler (2 * j * (k + 2 ^ s)) (2 * 2 ^ s) = euler (j * k) (2 ^ s) := by
    intro j
    rw [show 2 * j * (k + 2 ^ s) = 2 * (j * (k + 2 ^ s)) by ring,
      euler_double (j * (k + 2 ^ s)) (2 ^ s),
      show j * (k + 2 ^ s) = j * k + 2 ^ s * j by ring, euler_add,
      euler_mul_base j (2 ^ s)]
    ring
  have hodd : ∀ j : ℕ, euler ((2 * j + 1) * (k + 2 ^ s)) (2 * 2 ^ s)
      = -(euler k (2 * 2 ^ s) * euler (j * k) (2 ^ s)) := by
    intro j
    rw [show (2 * j + 1) * (k + 2 ^ s) = k + (2 * (j * k) + (2 * (2 ^ s * j) + 2 ^ s))
        by ring]
    rw [euler_add, euler_add, euler_add]
    rw [euler_double (j * k) (2 ^ s), euler_double (2 ^ s * j) (2 ^ s),
      euler_mul_base j (2 ^ s)]
    rw [show (2 : ℕ) * 2 ^ s = 2 ^ (s + 1) by ring, euler_half s]
    ring
  have e1 : ∑ j ∈ Finset.range (2 ^ s), x (st * (2 * j) + r)
      * euler (2 * j * (k + 2 ^ s)) (2 * 2 ^ s)
      = ∑ j ∈ Finset.range (2 ^ s), x (2 * st * j + r) * euler (j * k) (2 ^ s) := by
    apply Finset.sum_congr rfl
    intro j hj
    rw [heven j, show st * (2 * j) = 2 * st * j by ring]
  have e2 : ∑ j ∈ Finset.range (2 ^ s), x (st * (2 * j + 1) + r)
      * euler ((2 * j + 1) * (k + 2 ^ s)) (2 * 2 ^ s)
      = -(euler k (2 * 2 ^ s) *
          ∑ j ∈ Finset.range (2 ^ s), x (2 * st * j + st + r) * euler (j * k) (2 ^ s)) := by
    rw [Finset.mul_sum, ← Finset.sum_neg_distrib]
    apply Finset.sum_congr rfl
    intro j hj
    rw [hodd j, show st * (2 * j + 1) + r = 2 * st * j + st + r by ring]
    ring
  rw [e1, e2, show (2 : ℕ) * 2 ^ s = 2 ^ (s + 1) by ring]
  ring

/-! ## Pointwise characterisation of the in-place loops -/

theorem slot_eq_iff (currN k1 k2 m1 m2 : ℕ) (h1 : k1 < currN) (h2 : k2 < currN) :
    currN * m1 + k1 = currN * m2 + k2 ↔ m1 = m2 ∧ k1 = k2 := by
  constructor
  · intro h
    have hmod : k1 = k2 := by
      have e1 : (currN * m1 + k1) % currN = k1 := by
        rw [Nat.mul_add_mod]
        exact Nat.mod_eq_of_lt h1
      have e2 : (currN * m2 + k2) % currN = k2 := by
        rw [Nat.mul_add_mod]
        exact Nat.mod_eq_of_lt h2
      rw [← e1, ← e2, h]
    refine ⟨?_, hmod⟩
    have hcur : 0 < currN := by omega
    have : currN * m1 = currN * m2 := by omega
    exact Nat.eq_of_mul_eq_mul_left hcur this
  · rintro ⟨rfl, rfl⟩
    rfl

theorem foldl_update_apply (σ : ℕ → ℕ) (x : ℕ → ℂ) (A0 : ℕ → ℂ) (M : ℕ)
    (hinj : ∀ i < M, ∀ j < M, σ i = σ j → i = j) :
    ∀ i < M,
      ((List.range M).foldl (fun A i => Function.update A (σ i) (x i)) A0) (σ i)
        = x i := by
  induction M with
  | zero => omega
  | succ M ih =>
      intro i hi
      rw [List.range_succ, List.foldl_append]
      simp only [List.foldl_cons, List.foldl_nil]
      rcases Nat.lt_or_ge i M with hiM | hiM
      · have hne : σ M ≠ σ i := by
          intro h
          have := hinj M (by omega) i (by omega) h
          omega
        rw [Function.update_noteq (Ne.symm hne)]
        exact ih (fun a ha b hb hab => hinj a (by omega) b (by omega) hab) i hiM
      · have hiM' : i = M := by omega
        subst hiM'
        rw [Function.update_same]

theorem bitrevInit_apply (K : ℕ) (x : ℕ → ℂ) (t : ℕ) (ht : t < 2 ^ K) :
    bitrevInit (2 ^ K) x t = x (bitRevTable (2 ^ K) t) := by
  have hσ : ∀ i, i < 2 ^ K → bitRevTable (2 ^ K) i = revBits K i := fun i hi =>
    bitRevTable_two_pow K i hi
  have hinj : ∀ i < 2 ^ K, ∀ j < 2 ^ K, bitRevTable (2 ^ K) i = bitRevTable (2 ^ K) j → i = j := by
    intro i hi j hj h
    rw [hσ i hi, hσ j hj] at h
    have : revBits K (revBits K i) = revBits K (revBits K j) := by rw [h]
    rwa [revBits_revBits K i hi, revBits_revBits K j hj] at this
  have hrt : bitRevTable (2 ^ K) t < 2 ^ K := by
    rw [hσ t ht]
    exact revBits_lt K t
  have hinv : bitRevTable (2 ^ K) (bitRevTable (2 ^ K) t) = t := by
    rw [hσ t ht, hσ _ (by rw [← hσ t ht] at *; exact hrt)]
    exact revBits_revBits K t ht
  have := foldl_update_apply (bitRevTable (2 ^ K)) x (fun _ => 0) (2 ^ K) hinj
    (bitRevTable (2 ^ K) t) hrt
  rw [hinv] at this
  exact this

theorem applyButterfly_even (currN k m : ℕ) (A : ℕ → ℂ) :
    applyButterfly currN k m A (currN * m + k)
      = A (currN * m + k) + euler k currN * A (currN * m + k + currN / 2) := by
  unfold applyButterfly
  rw [Function.update_same]

theorem applyButterfly_odd (currN k m : ℕ) (A : ℕ → ℂ) (hhalf : 0 < currN / 2) :
    applyButterfly currN k m A (currN * m + k + currN / 2)
      = A (currN * m + k) - euler k currN * A (currN * m + k + currN / 2) := by
  unfold applyButterfly
  rw [Function.update_noteq (by omega), Function.update_same]

theorem applyButterfly_untouched (currN k m : ℕ) (A : ℕ → ℂ) (t : ℕ)
    (h1 : t ≠ currN * m + k) (h2 : t ≠ currN * m + k + currN / 2) :
    applyButterfly currN k m A t = A t := by
  unfold applyButterfly
  rw [Function.update_noteq h1, Function.update_noteq h2]

theorem innerFold_spec (currN k : ℕ) (hk : k < currN / 2) (A : ℕ → ℂ) (M : ℕ) :
    (∀ m, m < M →
      ((List.range M).foldl (fun B m => applyButterfly currN k m B) A) (currN * m + k)
        = A (currN * m + k) + euler k currN * A (currN * m + k + currN / 2))
    ∧ (∀ m, m < M →
      ((List.range M).foldl (fun B m => applyButterfly currN k m B) A)
          (currN * m + k + currN / 2)
        = A (currN * m + k) - euler k currN * A (currN * m + k + currN / 2))
    ∧ (∀ t, (∀ m, m < M → t ≠ currN * m + k ∧ t ≠ currN * m + k + currN / 2) →
      ((List.range M).foldl (fun B m => applyButterfly currN k m B) A) t = A t) := by
  have hk1 : k < currN := lt_of_lt_of_le hk (Nat.div_le_self _ _)
  have hk2 : k + currN / 2 < currN := by omega
  have hhalf : 0 < currN / 2 := by omega
  induction M with
  | zero => exact ⟨by omega, by omega, fun t _ => rfl⟩
  | succ M ih =>
      obtain ⟨ihe, iho, ihu⟩ := ih
      have hfold : (List.range (M + 1)).foldl (fun B m => applyButterfly currN k m B) A
          = applyButterfly currN k M
              ((List.range M).foldl (fun B m => applyButterfly currN k m B) A) := by
        rw [List.range_succ, List.foldl_append]
        rfl
      set F := (List.range M).foldl (fun B m => applyButterfly currN k m B) A with hF
      have hFe : F (currN * M + k) = A (currN * M + k) := by
        apply ihu
        intro m hm
        constructor
        · intro h
          obtain ⟨hm', _⟩ := (slot_eq_iff currN k k M m hk1 hk1).mp h
          omega
        · intro h
          rw [add_assoc] at h
          obtain ⟨_, hkk⟩ := (slot_eq_iff currN k (k + currN / 2) M m hk1 hk2).mp h
          omega
      have hFo : F (currN * M + k + currN / 2) = A (currN * M + k + currN / 2) := by
        apply ihu
        intro m hm
        constructor
        · intro h
          rw [add_assoc] at h
          obtain ⟨_, hkk⟩ := (slot_eq_iff currN (k + currN / 2) k M m hk2 hk1).mp h
          omega
        · intro h
          rw [add_assoc, add_assoc] at h
          obtain ⟨hm', _⟩ :=
            (slot_eq_iff currN (k + currN / 2) (k + currN / 2) M m hk2 hk2).mp h
          omega
      refine ⟨?_, ?_, ?_⟩
      · intro m hm
        rcases Nat.lt_or_ge m M with hmM | hmM
        · rw [hfold]
          rw [applyButterfly_untouched]
          · exact ihe m hmM
          · intro h
            obtain ⟨hm', _⟩ := (slot_eq_iff currN k k m M hk1 hk1).mp h
            omega
          · intro h
            rw [add_assoc] at h
            obtain ⟨_, hkk⟩ := (slot_eq_iff currN k (k + currN / 2) m M hk1 hk2).mp h
            omega
        · have hmM' : m = M := by omega
          subst hmM'
          rw [hfold, applyButterfly_even, hFe, hFo]
      · intro m hm
        rcases Nat.lt_or_ge m M with hmM | hmM
        · rw [hfold]
          rw [applyButterfly_untouched]
          · exact iho m hmM
          · intro h
            rw [add_assoc] at h
            obtain ⟨_, hkk⟩ := (slot_eq_iff currN (k + currN / 2) k m M hk2 hk1).mp h
            omega
          · intro h
            rw [add_assoc, add_assoc] at h
            obtain ⟨hm', _⟩ :=
              (slot_eq_iff currN (k + currN / 2) (k + currN / 2) m M hk2 hk2).mp h
            omega
        · have hmM' : m = M := by omega
          subst hmM'
          rw [hfold, applyButterfly_odd _ _ _ _ hhalf, hFe, hFo]
      · intro t htu
        rw [hfold]
        rw [applyButterfly_untouched _ _ _ _ _ (htu M (by omega)).1 (htu M (by omega)).2]
        exact ihu t (fun m hm => htu m (by omega))

theorem outerFold_spec (N currN : ℕ) (h2 : 2 ≤ currN) (hdvd : currN ∣ N)
    (A : ℕ → ℂ) (K0 : ℕ) (hK0 : K0 ≤ currN / 2) :
    (∀ t, t < N → t % currN < K0 →
      ((List.range K0).foldl (fun B k => innerLoop N currN k B) A) t
        = A t + euler (t % currN) currN * A (t + currN / 2))
    ∧ (∀ t, t < N → currN / 2 ≤ t % currN → t % currN < currN / 2 + K0 →
      ((List.range K0).foldl (fun B k => innerLoop N currN k B) A) t
        = A (t - currN / 2) - euler (t % currN - currN / 2) currN * A t)
    ∧ (∀ t, K0 ≤ t % currN → (t % currN < currN / 2 ∨ currN / 2 + K0 ≤ t % currN) →
      ((List.range K0).foldl (fun B k => innerLoop N currN k B) A) t = A t) := by
  induction K0 with
  | zero => exact ⟨by omega, by omega, fun t _ _ => rfl⟩
  | succ K0 ih =>
      have hK0' : K0 ≤ currN / 2 := by omega
      have hKlt : K0 < currN / 2 := by omega
      obtain ⟨ihe, iho, ihu⟩ := ih hK0'
      have hfold : (List.range (K0 + 1)).foldl (fun B k => innerLoop N currN k B) A
          = innerLoop N currN K0
              ((List.range K0).foldl (fun B k => innerLoop N currN k B) A) := by
        rw [List.range_succ, List.foldl_append]
        rfl
      set G := (List.range K0).foldl (fun B k => innerLoop N currN k B) A with hG
      obtain ⟨ie, io, iu⟩ := innerFold_spec currN K0 hKlt G (N / currN)
      have hcpos : 0 < currN := by omega
      have hk1 : K0 < currN := by omega
      have hk2 : K0 + currN / 2 < currN := by omega
      -- residue of a slot index
      have hmodslot : ∀ m r : ℕ, r < currN → (currN * m + r) % currN = r := by
        intro m r hr
        rw [Nat.mul_add_mod]
        exact Nat.mod_eq_of_lt hr
      -- untouched by the K0 pass for indices whose residue avoids K0 and K0 + currN/2
      have huntouched : ∀ t, t % currN ≠ K0 → t % currN ≠ K0 + currN / 2 →
          innerLoop N currN K0 G t = G t := by
        intro t h1 h2'
        apply iu
        intro m hm
        constructor
        · intro h
          rw [h, hmodslot m K0 hk1] at h1
          exact h1 rfl
        · intro h
          rw [add_assoc] at h
          rw [h, hmodslot m (K0 + currN / 2) hk2] at h2'
          exact h2' rfl
      refine ⟨?_, ?_, ?_⟩
      · -- even-region result
        intro t ht hrt
        rw [hfold]
        rcases Nat.lt_or_ge (t % currN) K0 with hr | hr
        · rw [huntouched t (by omega) (by omega)]
          exact ihe t ht hr
        · have hrK : t % currN = K0 := by omega
          have hdm := Nat.div_add_mod t currN
          have hdecomp : t = currN * (t / currN) + K0 := by omega
          have hq : t / currN < N / currN := Nat.div_lt_div_of_lt_of_dvd hdvd ht
          have h1 := ie (t / currN) hq
          rw [← hdecomp] at h1
          have hGt : G t = A t := ihu t (by omega) (by omega)
          have hmod2 : (t + currN / 2) % currN = K0 + currN / 2 := by
            rw [show t + currN / 2 = currN * (t / currN) + (K0 + currN / 2) by omega]
            exact hmodslot _ _ hk2
          have hGt2 : G (t + currN / 2) = A (t + currN / 2) :=
            ihu _ (by omega) (by omega)
          rw [hrK, innerLoop, h1, hGt, hGt2]
      · -- odd-region result
        intro t ht hge hlt
        rw [hfold]
        rcases Nat.lt_or_ge (t % currN) (currN / 2 + K0) with hr | hr
        · rw [huntouched t (by omega) (by omega)]
          exact iho t ht hge hr
        · have hrK : t % currN = K0 + currN / 2 := by omega
          have hdm := Nat.div_add_mod t currN
          have hdecomp : t = currN * (t / currN) + K0 + currN / 2 := by omega
          have hq : t / currN < N / currN := Nat.div_lt_div_of_lt_of_dvd hdvd ht
          have h1 := io (t / currN) hq
          rw [← hdecomp] at h1
          have hsub : t - currN / 2 = currN * (t / currN) + K0 := by omega
          have hGe : G (t - currN / 2) = A (t - currN / 2) := by
            apply ihu
            · rw [hsub, hmodslot (t / currN) K0 hk1]
            · rw [hsub, hmodslot (t / currN) K0 hk1]
              left
              exact hKlt
          have hGo : G t = A t := ihu t (by omega) (by omega)
          rw [← hsub] at h1
          rw [hrK]
          have hKr : K0 + currN / 2 - currN / 2 = K0 := by omega
          rw [hKr, innerLoop, h1, hGe, hGo]
      · -- untouched region
        intro t hge hside
        rw [hfold]
        rw [huntouched t (by omega) (by omega)]
        exact ihu t (by omega) (by omega)

theorem stageLoop_apply (N currN : ℕ) (h2 : 2 ≤ currN) (heven : currN % 2 = 0)
    (hdvd : currN ∣ N) (A : ℕ → ℂ) (t : ℕ) (ht : t < N) :
    stageLoop N currN A t =
      if t % currN < currN / 2
      then A t + euler (t % currN) currN * A (t + currN / 2)
      else A (t - currN / 2) - euler (t % currN - currN / 2) currN * A t := by
  obtain ⟨he, ho, _⟩ := outerFold_spec N currN h2 hdvd A (currN / 2) (le_refl _)
  have hmod : t % currN < currN := Nat.mod_lt t (by omega)
  rcases Nat.lt_or_ge (t % currN) (currN / 2) with hr | hr
  · rw [if_pos hr]
    exact he t ht hr
  · rw [if_neg (by omega)]
    exact ho t ht hr (by omega)

/-! ## The stage invariant and fft = DFT -/

theorem nat_log2_two_pow (K : ℕ) : Nat.log2 (2 ^ K) = K := by
  rw [Nat.log2_eq_log_two]
  exact Nat.log_pow (by norm_num) K

theorem stagesUpTo_apply (K : ℕ) (x : ℕ → ℂ) (s : ℕ) (hs : s ≤ K) :
    ∀ m k, m < 2 ^ (K - s) → k < 2 ^ s →
      ((List.range s).foldl (fun B n => stageLoop (2 ^ K) (2 ^ (n + 1)) B)
          (bitrevInit (2 ^ K) x)) (2 ^ s * m + k)
        = ∑ j ∈ Finset.range (2 ^ s),
            x (2 ^ (K - s) * j + revBits (K - s) m) * euler (j * k) (2 ^ s) := by
  induction s with
  | zero =>
      intro m k hm hk
      have hk0 : k = 0 := by omega
      subst hk0
      have hm' : 2 ^ 0 * m + 0 = m := by ring
      rw [hm']
      simp only [List.range_zero, List.foldl_nil]
      rw [bitrevInit_apply K x m (by simpa using hm)]
      rw [bitRevTable_two_pow K m (by simpa using hm)]
      have h20 : (2 : ℕ) ^ 0 = 1 := rfl
      rw [h20, Finset.sum_range_one]
      norm_num [euler_zero]
  | succ s ih =>
      intro m k hm hk
      have hsK : s < K := by omega
      have hs' : s ≤ K := by omega
      have hKss : K - (s + 1) = K - s - 1 := by omega
      rw [hKss] at hm
      have ihs := ih hs'
      have hfold : (List.range (s + 1)).foldl
            (fun B n => stageLoop (2 ^ K) (2 ^ (n + 1)) B) (bitrevInit (2 ^ K) x)
          = stageLoop (2 ^ K) (2 ^ (s + 1))
              ((List.range s).foldl (fun B n => stageLoop (2 ^ K) (2 ^ (n + 1)) B)
                (bitrevInit (2 ^ K) x)) := by
        rw [List.range_succ, List.foldl_append]
        rfl
      set F := (List.range s).foldl (fun B n => stageLoop (2 ^ K) (2 ^ (n + 1)) B)
        (bitrevInit (2 ^ K) x) with hF
      rw [hfold]
      have h2 : 2 ≤ 2 ^ (s + 1) := by
        calc 2 = 2 ^ 1 := rfl
        _ ≤ 2 ^ (s + 1) := Nat.pow_le_pow_right (by norm_num) (by omega)
      have heven : 2 ^ (s + 1) % 2 = 0 := by
        rw [pow_succ]
        exact Nat.mul_mod_left _ 2
      have hdvd : 2 ^ (s + 1) ∣ 2 ^ K := pow_dvd_pow 2 (by omega)
      have hhalf : 2 ^ (s + 1) / 2 = 2 ^ s := by
        rw [pow_succ]
        exact Nat.mul_div_cancel _ (by norm_num)
      have ht : 2 ^ (s + 1) * m + k < 2 ^ K := by
        have h1 : 2 ^ (s + 1) * m + k < 2 ^ (s + 1) * (m + 1) := by
          have : 2 ^ (s + 1) * (m + 1) = 2 ^ (s + 1) * m + 2 ^ (s + 1) := by ring
          omega
        have h2' : 2 ^ (s + 1) * (m + 1) ≤ 2 ^ (s + 1) * 2 ^ (K - s - 1) :=
          Nat.mul_le_mul_left _ (by omega)
        have h3 : (2 : ℕ) ^ (s + 1) * 2 ^ (K - s - 1) = 2 ^ K := by
          rw [← pow_add]
          congr 1
          omega
        omega
      have hmodk : (2 ^ (s + 1) * m + k) % 2 ^ (s + 1) = k := by
        rw [Nat.mul_add_mod]
        exact Nat.mod_eq_of_lt hk
      rw [stageLoop_apply (2 ^ K) (2 ^ (s + 1)) h2 heven hdvd F _ ht, hmodk, hhalf]
      -- the two sub-block decompositions
      have heq1 : 2 ^ (s + 1) * m + k = 2 ^ s * (2 * m) + k := by ring
      have hm2 : 2 * m < 2 ^ (K - s) := by
        have : (2 : ℕ) ^ (K - s) = 2 * 2 ^ (K - s - 1) := by
          rw [← pow_succ']
          congr 1
          omega
        omega
      have hm2' : 2 * m + 1 < 2 ^ (K - s) := by
        have : (2 : ℕ) ^ (K - s) = 2 * 2 ^ (K - s - 1) := by
          rw [← pow_succ']
          congr 1
          omega
        omega
      have hstride : 2 ^ (K - s) = 2 * 2 ^ (K - s - 1) := by
        rw [← pow_succ']
        congr 1
        omega
      have hrevE : revBits (K - s) (2 * m) = revBits (K - s - 1) m := by
        have hKs : K - s = (K - s - 1) + 1 := by omega
        rw [hKs]
        exact revBits_even (K - s - 1) m
      have hrevO : revBits (K - s) (2 * m + 1) = 2 ^ (K - s - 1) + revBits (K - s - 1) m := by
        have hKs : K - s = (K - s - 1) + 1 := by omega
        rw [hKs]
        exact revBits_odd (K - s - 1) m
      rcases Nat.lt_or_ge k (2 ^ s) with hks | hks
      · -- even slot of the butterfly
        rw [if_pos hks]
        have hE := ihs (2 * m) k hm2 hks
        rw [← heq1] at hE
        have heq2 : 2 ^ (s + 1) * m + k + 2 ^ s = 2 ^ s * (2 * m + 1) + k := by ring
        have hO := ihs (2 * m + 1) k hm2' hks
        rw [← heq2] at hO
        rw [hE, hO, hrevE, hrevO]
        simp only [← add_assoc]
        have hcomb := dit_combine_even s (2 ^ (K - s - 1)) (revBits (K - s - 1) m) k x
        rw [← hstride] at hcomb
        rw [hKss]
        exact hcomb
      · -- odd slot of the butterfly
        rw [if_neg (by omega)]
        have hkd : k - 2 ^ s < 2 ^ s := by
          have : (2 : ℕ) ^ (s + 1) = 2 ^ s + 2 ^ s := by
            rw [pow_succ]
            ring
          omega
        have heqE : 2 ^ (s + 1) * m + k - 2 ^ s = 2 ^ s * (2 * m) + (k - 2 ^ s) := by
          have h1 : 2 ^ (s + 1) * m = 2 ^ s * (2 * m) := by ring
          omega
        have heqO : 2 ^ (s + 1) * m + k = 2 ^ s * (2 * m + 1) + (k - 2 ^ s) := by
          have h1 : 2 ^ s * (2 * m + 1) = 2 ^ (s + 1) * m + 2 ^ s := by ring
          omega
        have hE := ihs (2 * m) (k - 2 ^ s) hm2 hkd
        rw [← heqE] at hE
        have hO := ihs (2 * m + 1) (k - 2 ^ s) hm2' hkd
        rw [← heqO] at hO
        rw [hE, hO, hrevE, hrevO]
        simp only [← add_assoc]
        have hcomb := dit_combine_odd s (2 ^ (K - s - 1)) (revBits (K - s - 1) m)
          (k - 2 ^ s) x
        have hkk : k - 2 ^ s + 2 ^ s = k := by omega
        rw [hkk] at hcomb
        rw [← hstride] at hcomb
        rw [hKss]
        exact hcomb

theorem fftCore_dft (K : ℕ) (x : ℕ → ℂ) (j : ℕ) (hj : j < 2 ^ K) :
    fftCore (2 ^ K) x j = dft (2 ^ K) x j := by
  unfold fftCore stagesLoop
  rw [nat_log2_two_pow]
  have h := stagesUpTo_apply K x K (le_refl K) 0 j (by simp) hj
  have h0 : 2 ^ K * 0 + j = j := by ring
  rw [h0] at h
  rw [h]
  unfold dft
  apply Finset.sum_congr rfl
  intro i hi
  have : 2 ^ (K - K) * i + revBits (K - K) 0 = i := by
    simp [revBits]
  rw [this]

/-! ## Behaviour of the fft and ifft wrappers -/

theorem getD_map_range {α : Type} (N n : ℕ) (f : ℕ → α) (d : α) (hn : n < N) :
    ((List.range N).map f).getD n d = f n := by
  rw [List.getD_eq_getElem?_getD, List.getElem?_map, List.getElem?_range hn]
  rfl

theorem fft_ok (s : ComplexArray) (K : ℕ) (hr : s.real.length = 2 ^ K)
    (hi : s.imag.length = 2 ^ K) :
    fft s = Except.ok
      ⟨(List.range (2 ^ K)).map (fun j => (dft (2 ^ K) (toSamples s) j).re),
       (List.range (2 ^ K)).map (fun j => (dft (2 ^ K) (toSamples s) j).im)⟩ := by
  unfold fft
  rw [hr, hi]
  have h1 : jsPow2Check (2 ^ K) = true := by
    unfold jsPow2Check
    rw [isPow2_two_pow]
    simp
  rw [h1]
  norm_num
  constructor
  · intro a ha
    rw [fftCore_dft K (toSamples s) a ha]
  · intro a ha
    rw [fftCore_dft K (toSamples s) a ha]

/-- Sum of the k-th powers of a nontrivial N-th root of unity vanishes. -/
theorem exp_unit_sum (N : ℕ) (hN : 0 < N) (d : ℤ) (hd1 : -(N : ℤ) < d)
    (hd2 : d < N) (hd0 : d ≠ 0) :
    ∑ k ∈ Finset.range N,
      Complex.exp ((((2 : ℝ) * Real.pi * (d : ℝ) / N : ℝ) : ℂ) * Complex.I) ^ k = 0 := by
  set ζ := Complex.exp ((((2 : ℝ) * Real.pi * (d : ℝ) / N : ℝ) : ℂ) * Complex.I) with hζ
  have hNr : (N : ℝ) ≠ 0 := by positivity
  have hζ1 : ζ ≠ 1 := by
    intro h
    rw [hζ, Complex.exp_eq_one_iff] at h
    obtain ⟨mm, hm⟩ := h
    have him := congrArg Complex.im hm
    simp [Complex.mul_im, Complex.ofReal_re, Complex.ofReal_im] at him
    -- him : 2 * pi * d / N = mm * (2 * pi)
    have hdN : (d : ℝ) = (mm : ℝ) * N := by
      field_simp at him
      nlinarith [Real.pi_ne_zero, Real.pi_pos]
    have hdZ : d = mm * N := by exact_mod_cast hdN
    have hdvd : (N : ℤ) ∣ d := ⟨mm, by rw [hdZ]; ring⟩
    have hled : (N : ℤ) ≤ |d| :=
      Int.le_of_dvd (abs_pos.mpr hd0) ((dvd_abs _ _).mpr hdvd)
    have hlt : |d| < N := abs_lt.mpr ⟨hd1, hd2⟩
    linarith
  have hζN : ζ ^ N = 1 := by
    rw [hζ, ← Complex.exp_nat_mul]
    have hNc : (N : ℂ) ≠ 0 := Nat.cast_ne_zero.mpr (by omega)
    have harg : (N : ℂ) * ((((2 : ℝ) * Real.pi * (d : ℝ) / N : ℝ) : ℂ) * Complex.I)
        = (d : ℤ) * (2 * (Real.pi : ℂ) * Complex.I) := by
      push_cast
      field_simp
      ring
    rw [harg]
    exact Complex.exp_int_mul_two_pi_mul_I d
  rw [geom_sum_eq hζ1 N, hζN]
  simp

/-- The textbook inverse DFT inverts the textbook DFT. -/
theorem idft_dft (N : ℕ) (hN : 0 < N) (x : ℕ → ℂ) (n : ℕ) (hn : n < N) :
    idft N (dft N x) n = x n := by
  unfold idft dft
  have hNr : (N : ℝ) ≠ 0 := by positivity
  have hNc : (N : ℂ) ≠ 0 := Nat.cast_ne_zero.mpr (by omega)
  have hterm : ∀ i k : ℕ,
      euler (i * k) N *
          Complex.exp ((((2 : ℝ) * Real.pi * ((k : ℝ) * (n : ℝ)) / N : ℝ) : ℂ) * Complex.I)
        = Complex.exp ((((2 : ℝ) * Real.pi * ((((n : ℤ) - (i : ℤ) : ℤ)) : ℝ) / N : ℝ) : ℂ)
            * Complex.I) ^ k := by
    intro i k
    rw [← Complex.exp_nat_mul]
    unfold euler
    rw [← Complex.exp_add]
    congr 1
    push_cast
    field_simp
    ring
  have step1 : (∑ k ∈ Finset.range N,
        (∑ i ∈ Finset.range N, x i * euler (i * k) N) *
          Complex.exp ((((2 : ℝ) * Real.pi * ((k : ℝ) * (n : ℝ)) / N : ℝ) : ℂ) * Complex.I))
      = ∑ i ∈ Finset.range N, x i *
          ∑ k ∈ Finset.range N,
            Complex.exp ((((2 : ℝ) * Real.pi * ((((n : ℤ) - (i : ℤ) : ℤ)) : ℝ) / N : ℝ) : ℂ)
              * Complex.I) ^ k := by
    simp_rw [Finset.sum_mul]
    rw [Finset.sum_comm]
    apply Finset.sum_congr rfl
    intro i _
    rw [Finset.mul_sum]
    apply Finset.sum_congr rfl
    intro k _
    rw [mul_assoc, hterm i k]
  rw [step1]
  have hS : ∀ i ∈ Finset.range N,
      (x i * ∑ k ∈ Finset.range N,
        Complex.exp ((((2 : ℝ) * Real.pi * ((((n : ℤ) - (i : ℤ) : ℤ)) : ℝ) / N : ℝ) : ℂ)
          * Complex.I) ^ k)
      = if i = n then x n * N else 0 := by
    intro i hi
    rw [Finset.mem_range] at hi
    by_cases hin : i = n
    · subst hin
      rw [if_pos rfl]
      have h0 : (((2 : ℝ) * Real.pi * ((((i : ℤ) - (i : ℤ) : ℤ)) : ℝ) / N : ℝ) : ℂ) = 0 := by
        push_cast
        norm_num
      rw [h0]
      simp
    · rw [if_neg hin]
      rw [exp_unit_sum N hN ((n : ℤ) - (i : ℤ)) (by omega) (by omega) (by omega)]
      simp
  rw [Finset.sum_congr rfl hS, Finset.sum_ite_eq' (Finset.range N) n
    (fun _ => x n * (N : ℂ))]
  rw [if_pos (Finset.mem_range.mpr hn)]
  field_simp

/-- The forward transform of a conjugated sequence is the conjugate of N
times the textbook inverse DFT. -/
theorem dft_star (N : ℕ) (x : ℕ → ℂ) (j : ℕ) :
    dft N (fun i => (starRingEnd ℂ) (x i)) j
      = (starRingEnd ℂ) (idft N x j * N) := by
  unfold dft idft
  rcases Nat.eq_zero_or_pos N with hN | hN
  · subst hN
    simp
  · have hNc : (N : ℂ) ≠ 0 := Nat.cast_ne_zero.mpr (by omega)
    rw [div_mul_cancel₀ _ hNc, map_sum]
    apply Finset.sum_congr rfl
    intro k _
    rw [map_mul]
    congr 1
    unfold euler
    rw [← Complex.exp_conj]
    congr 1
    rw [map_mul, Complex.conj_I, Complex.conj_ofReal]
    push_cast
    ring

/-- What ifft actually returns on a well-formed power-of-two input: the
real part of the textbook inverse DFT together with the NEGATED imaginary
part (the algorithm conjugates the input but never conjugates the
output). -/
theorem ifft_spec (X : ComplexArray) (K : ℕ) (hr : X.real.length = 2 ^ K)
    (hi : X.imag.length = 2 ^ K) :
    ifft X = Except.ok
      ⟨(List.range (2 ^ K)).map (fun n => (idft (2 ^ K) (toSamples X) n).re),
       (List.range (2 ^ K)).map (fun n => -(idft (2 ^ K) (toSamples X) n).im)⟩ := by
  unfold ifft
  rw [hr]
  set C : ComplexArray := ⟨(List.range (2 ^ K)).map (fun i => X.real.getD i 0),
    (List.range (2 ^ K)).map (fun i => -(X.imag.getD i 0))⟩ with hC
  have hcr : C.real.length = 2 ^ K := by simp [hC]
  have hci : C.imag.length = 2 ^ K := by simp [hC]
  rw [fft_ok C K hcr hci]
  have hM : ((2 ^ K : ℕ) : ℂ) ≠ 0 := Nat.cast_ne_zero.mpr (by positivity)
  have hMr : ((2 ^ K : ℕ) : ℝ) ≠ 0 := Nat.cast_ne_zero.mpr (by positivity)
  have hpoint : ∀ n, n < 2 ^ K →
      dft (2 ^ K) (toSamples C) n
        = (starRingEnd ℂ) (idft (2 ^ K) (toSamples X) n * ((2 ^ K : ℕ) : ℂ)) := by
    intro n hn
    have hsame : dft (2 ^ K) (toSamples C) n
        = dft (2 ^ K) (fun i => (starRingEnd ℂ) (toSamples X i)) n := by
      unfold dft
      apply Finset.sum_congr rfl
      intro i hi'
      rw [Finset.mem_range] at hi'
      have h1 : toSamples C i = (starRingEnd ℂ) (toSamples X i) := by
        unfold toSamples
        apply Complex.ext
        · show C.real.getD i 0 = ((starRingEnd ℂ) (⟨X.real.getD i 0, X.imag.getD i 0⟩ : ℂ)).re
          rw [Complex.conj_re]
          exact getD_map_range (2 ^ K) i _ 0 hi'
        · show C.imag.getD i 0 = ((starRingEnd ℂ) (⟨X.real.getD i 0, X.imag.getD i 0⟩ : ℂ)).im
          rw [Complex.conj_im]
          exact getD_map_range (2 ^ K) i _ 0 hi'
      rw [h1]
    rw [hsame, dft_star]
  simp only [Except.map, List.map_map]
  congr 1
  congr 1
  · apply List.map_congr_left
    intro n hn
    rw [List.mem_range] at hn
    show (dft (2 ^ K) (toSamples C) n).re / ((2 ^ K : ℕ) : ℝ)
      = (idft (2 ^ K) (toSamples X) n).re
    rw [hpoint n hn, Complex.conj_re, Complex.mul_re]
    simp only [Complex.natCast_re, Complex.natCast_im, mul_zero, sub_zero]
    exact mul_div_cancel_right₀ _ hMr
  · apply List.map_congr_left
    intro n hn
    rw [List.mem_range] at hn
    show (dft (2 ^ K) (toSamples C) n).im / ((2 ^ K : ℕ) : ℝ)
      = -(idft (2 ^ K) (toSamples X) n).im
    rw [hpoint n hn, Complex.conj_im, Complex.mul_im]
    simp only [Complex.natCast_re, Complex.natCast_im, mul_zero, zero_add, zero_mul,
      add_zero]
    rw [neg_div]
    rw [mul_div_cancel_right₀ _ hMr]

/-! ## equalizer.ts: band-to-bin gains (range-based version) -/

/-- binMin of a band: Math.max(0, Math.floor(minFreq * fftSize / sampleRate)). -/
def binMinOf (fftSize : ℕ) (sampleRate minFreq : ℚ) : ℤ :=
  max 0 ⌊minFreq * fftSize / sampleRate⌋

/-- binMax of a band: Math.min(fftSize - 1, Math.ceil(maxFreq * fftSize / sampleRate)). -/
def binMaxOf (fftSize : ℕ) (sampleRate maxFreq : ℚ) : ℤ :=
  min ((fftSize : ℤ) - 1) ⌈maxFreq * fftSize / sampleRate⌉

/-- One iteration of the bin loop of createBinGainsFromRanges: write the
gain at the bin, and (for bins strictly between 0 and fftSize/2) also at
the mirrored bin fftSize - bin. -/
def setBinGain (fftSize : ℕ) (gain : ℚ) (gs : List ℚ) (bin : ℕ) : List ℚ :=
  if 0 < bin ∧ 2 * bin < fftSize then (gs.set bin gain).set (fftSize - bin) gain
  else gs.set bin gain

/-- One band of createBinGainsFromRanges: compute the clamped bin range;
if it is non-empty write the gain over it (with mirroring), otherwise
skip the band. -/
def applyBand (fftSize : ℕ) (sampleRate : ℚ) (gs : List ℚ) (band : ℚ × ℚ × ℚ) :
    List ℚ :=
  if binMinOf fftSize sampleRate band.1 ≤ binMaxOf fftSize sampleRate band.2.1 then
    (List.range' (binMinOf fftSize sampleRate band.1).toNat
        ((binMaxOf fftSize sampleRate band.2.1).toNat + 1
          - (binMinOf fftSize sampleRate band.1).toNat)).foldl
      (setBinGain fftSize band.2.2) gs
  else gs

/-- createBinGainsFromRanges of equalizer.ts: start from all-ones and
apply each band in list order.  Frequencies, gains and the sample rate
are modelled as rationals (the JS floor and ceil on exact products). -/
def createBinGainsFromRanges (fftSize : ℕ) (rangeControlsHz : List (ℚ × ℚ × ℚ))
    (sampleRate : ℚ) : List ℚ :=
  rangeControlsHz.foldl (applyBand fftSize sampleRate)
    (List.replicate fftSize (1 : ℚ))

/-- createBinGains (the backward-compatibility wrapper of equalizer.ts):
turn each (freq, gain) control into the degenerate range (freq, freq, gain)
and delegate to createBinGainsFromRanges. -/
def createBinGains (fftSize : ℕ) (gainControlsHz : List (ℚ × ℚ))
    (sampleRate : ℚ) : List ℚ :=
  createBinGainsFromRanges fftSize
    (gainControlsHz.map (fun c => (c.1, c.1, c.2))) sampleRate

/-- Gain application loop of equalizer: multiply every spectral sample by
its bin gain into a fresh pair of arrays. -/
noncomputable def applyGains (fftOutput : ComplexArray) (binGains : List ℚ) :
    ComplexArray :=
  ⟨(List.range fftOutput.real.length).map
      (fun i => fftOutput.real.getD i 0 * ((binGains.getD i 1 : ℚ) : ℝ)),
   (List.range fftOutput.real.length).map
      (fun i => fftOutput.imag.getD i 0 * ((binGains.getD i 1 : ℚ) : ℝ))⟩

/-- equalizer of equalizer.ts: bin gains from the Hz ranges, gains applied
bin by bin, inverse transform, and both results returned. -/
noncomputable def equalizer (fftOutput : ComplexArray)
    (rangeControlsHz : List (ℚ × ℚ × ℚ)) (sampleRate : ℚ) :
    Except String (List ℝ × ComplexArray) :=
  (ifft (applyGains fftOutput
      (createBinGainsFromRanges fftOutput.real.length rangeControlsHz sampleRate))).map
    (fun equalizedSignal => (equalizedSignal.real,
      applyGains fftOutput
        (createBinGainsFromRanges fftOutput.real.length rangeControlsHz sampleRate)))

/-! ## useAudioProcessor.tsx -/

/-- The sort performed by processAudio before calling the equalizer:
a stable ascending sort on the first tuple component
([...ranges].sort((a, b) => a[0] - b[0])). -/
def sortRanges (ranges : List (ℚ × ℚ × ℚ)) : List (ℚ × ℚ × ℚ) :=
  ranges.mergeSort (fun a b => decide (a.1 ≤ b.1))

/-- The bin gains the equalizer ends up using when invoked from
processAudio: the caller's ranges are sorted first. -/
def processAudioBinGains (fftSize : ℕ) (ranges : List (ℚ × ℚ × ℚ))
    (sampleRate : ℚ) : List ℚ :=
  createBinGainsFromRanges fftSize (sortRanges ranges) sampleRate

/-- The Hann window of computeSTFT:
0.5 * (1 - cos(2 pi i / (fftSize - 1))). -/
noncomputable def hannWindow (fftSize : ℕ) : List ℝ :=
  (List.range fftSize).map
    (fun i : ℕ => 0.5 * (1 - Real.cos ((2 * Real.pi * (i : ℝ)) / ((fftSize : ℝ) - 1))))

/-- Frame start offsets of the computeSTFT loops
(start = 0; start + fftSize <= length; start += hopSize), with fuel
length+1, which suffices whenever hopSize is positive.  (For hopSize = 0
the JS loop would not terminate.) -/
def frameStartsAux (L F H : ℕ) : ℕ → ℕ → List ℕ
  | 0, _ => []
  | fuel + 1, start =>
      if start + F ≤ L then start :: frameStartsAux L F H fuel (start + H) else []

def frameStarts (L F H : ℕ) : List ℕ := frameStartsAux L F H (L + 1) 0

/-- One windowed frame of computeSTFT: slice of the signal multiplied
pointwise by the Hann window, with a zero imaginary buffer. -/
noncomputable def stftFrame (data : List ℝ) (fftSize start : ℕ) : ComplexArray :=
  ⟨List.zipWith (fun v w => v * w) ((data.drop start).take fftSize)
      (hannWindow fftSize),
   List.replicate fftSize 0⟩

/-- The 1e-12 floor of computeSTFT (modelled as the exact decimal). -/
noncomputable def magFloor : ℝ := 1 / 10 ^ 12

/-- The first-pass inner loop of computeSTFT: fold the peak magnitude of
the first fftSize/2 bins of one spectrum onto the accumulator. -/
noncomputable def frameMaxMag (fftSize : ℕ) (spec : ComplexArray) (acc : ℝ) : ℝ :=
  (List.range (fftSize / 2)).foldl
    (fun m j => max m (Real.sqrt ((spec.real.getD j 0) ^ 2 + (spec.imag.getD j 0) ^ 2)))
    acc

/-- The second-pass slice of computeSTFT: normalized dB conversion and
quantization of the first fftSize/2 bins (the Uint8Array entries). -/
noncomputable def quantizeSlice (fftSize : ℕ) (maxMag : ℝ) (spec : ComplexArray) :
    List ℤ :=
  (List.range (fftSize / 2)).map (fun j =>
    min 255 (max 0
      ⌊((20 * Real.logb 10
            (Real.sqrt ((spec.real.getD j 0) ^ 2 + (spec.imag.getD j 0) ^ 2) / maxMag
              + magFloor) + 100) / 100) * 255⌋))

/-- computeSTFT of useAudioProcessor.tsx: two passes over the frames (the
first finds the peak magnitude, the second produces the quantized dB
slices); a transform error inside either pass propagates out. -/
noncomputable def computeSTFT (data : List ℝ) (fftSize hopSize : ℕ) :
    Except String (List (List ℤ)) := do
  let specs ← (frameStarts data.length fftSize hopSize).mapM
    (fun start => fft (stftFrame data fftSize start))
  let maxMag := specs.foldl (fun acc spec => frameMaxMag fftSize spec acc) magFloor
  let specs2 ← (frameStarts data.length fftSize hopSize).mapM
    (fun start => fft (stftFrame data fftSize start))
  pure (specs2.map (fun spec => quantizeSlice fftSize maxMag spec))

/-! ## Characterising the bin-gain construction -/

theorem setBinGain_length (fftSize : ℕ) (g : ℚ) (gs : List ℚ) (c : ℕ) :
    (setBinGain fftSize g gs c).length = gs.length := by
  unfold setBinGain
  by_cases h : 0 < c ∧ 2 * c < fftSize
  · rw [if_pos h, List.length_set, List.length_set]
  · rw [if_neg h, List.length_set]

theorem foldl_setBinGain_length (fftSize : ℕ) (g : ℚ) :
    ∀ (l : List ℕ) (gs : List ℚ),
      (l.foldl (setBinGain fftSize g) gs).length = gs.length := by
  intro l
  induction l with
  | nil => intro gs; rfl
  | cons c l ih =>
      intro gs
      rw [List.foldl_cons, ih, setBinGain_length]

theorem applyBand_length (fftSize : ℕ) (Fs : ℚ) (gs : List ℚ) (band : ℚ × ℚ × ℚ) :
    (applyBand fftSize Fs gs band).length = gs.length := by
  unfold applyBand
  by_cases h : binMinOf fftSize Fs band.1 ≤ binMaxOf fftSize Fs band.2.1
  · rw [if_pos h, foldl_setBinGain_length]
  · rw [if_neg h]

theorem createBinGainsFromRanges_length (fftSize : ℕ) (rs : List (ℚ × ℚ × ℚ))
    (Fs : ℚ) : (createBinGainsFromRanges fftSize rs Fs).length = fftSize := by
  unfold createBinGainsFromRanges
  have h : ∀ (l : List (ℚ × ℚ × ℚ)) (gs : List ℚ),
      (l.foldl (applyBand fftSize Fs) gs).length = gs.length := by
    intro l
    induction l with
    | nil => intro gs; rfl
    | cons r l ih =>
        intro gs
        rw [List.foldl_cons, ih, applyBand_length]
  rw [h, List.length_replicate]

/-- The set of bins one band writes (directly, or as the mirror of a
written bin strictly between 0 and fftSize/2). -/
abbrev BandWrites (fftSize : ℕ) (sampleRate : ℚ) (band : ℚ × ℚ × ℚ) (b : ℕ) : Prop :=
  binMinOf fftSize sampleRate band.1 ≤ binMaxOf fftSize sampleRate band.2.1 ∧
  ((binMinOf fftSize sampleRate band.1 ≤ (b : ℤ) ∧
      (b : ℤ) ≤ binMaxOf fftSize sampleRate band.2.1) ∨
   (b < fftSize ∧ 2 * (fftSize - b) < fftSize ∧
      binMinOf fftSize sampleRate band.1 ≤ ((fftSize - b : ℕ) : ℤ) ∧
      ((fftSize - b : ℕ) : ℤ) ≤ binMaxOf fftSize sampleRate band.2.1))

theorem setBinGain_getD (fftSize : ℕ) (g : ℚ) (gs : List ℚ) (c b : ℕ)
    (hb : b < gs.length) :
    (setBinGain fftSize g gs c).getD b 1
      = if b = c ∨ (0 < c ∧ 2 * c < fftSize ∧ b = fftSize - c) then g
        else gs.getD b 1 := by
  unfold setBinGain
  by_cases hm : 0 < c ∧ 2 * c < fftSize
  · rw [if_pos hm]
    have hb1 : b < ((gs.set c g).set (fftSize - c) g).length := by
      rw [List.length_set, List.length_set]
      exact hb
    rw [List.getD_eq_getElem _ _ hb1, List.getElem_set, List.getElem_set]
    by_cases h1 : fftSize - c = b
    · rw [if_pos h1, if_pos (Or.inr ⟨hm.1, hm.2, h1.symm⟩)]
    · rw [if_neg h1]
      by_cases h2 : c = b
      · rw [if_pos h2, if_pos (Or.inl h2.symm)]
      · rw [if_neg h2, if_neg (by
          rintro (h | ⟨_, _, h⟩)
          · exact h2 h.symm
          · exact h1 h.symm)]
        exact (List.getD_eq_getElem gs 1 hb).symm
  · rw [if_neg hm]
    have hb1 : b < (gs.set c g).length := by
      rw [List.length_set]
      exact hb
    rw [List.getD_eq_getElem _ _ hb1, List.getElem_set]
    by_cases h2 : c = b
    · rw [if_pos h2, if_pos (Or.inl h2.symm)]
    · rw [if_neg h2, if_neg (by
        rintro (h | ⟨hc1, hc2, _⟩)
        · exact h2 h.symm
        · exact hm ⟨hc1, hc2⟩)]
      exact (List.getD_eq_getElem gs 1 hb).symm

theorem foldl_setBinGain_getD (fftSize : ℕ) (g : ℚ) (b : ℕ) :
    ∀ (l : List ℕ) (gs : List ℚ), b < gs.length →
      (l.foldl (setBinGain fftSize g) gs).getD b 1
        = if ∃ c ∈ l, b = c ∨ (0 < c ∧ 2 * c < fftSize ∧ b = fftSize - c) then g
          else gs.getD b 1 := by
  intro l
  induction l with
  | nil =>
      intro gs hb
      rw [if_neg (by rintro ⟨c, hc, _⟩; exact absurd hc (List.not_mem_nil c))]
      rfl
  | cons c0 l ih =>
      intro gs hb
      rw [List.foldl_cons]
      have hb' : b < (setBinGain fftSize g gs c0).length := by
        rw [setBinGain_length]
        exact hb
      rw [ih _ hb', setBinGain_getD fftSize g gs c0 b hb]
      by_cases htail : ∃ c ∈ l, b = c ∨ (0 < c ∧ 2 * c < fftSize ∧ b = fftSize - c)
      · rw [if_pos htail, if_pos (by
          obtain ⟨c, hc, hp⟩ := htail
          exact ⟨c, List.mem_cons_of_mem c0 hc, hp⟩)]
      · rw [if_neg htail]
        by_cases hc0 : b = c0 ∨ (0 < c0 ∧ 2 * c0 < fftSize ∧ b = fftSize - c0)
        · rw [if_pos hc0, if_pos ⟨c0, List.mem_cons_self c0 l, hc0⟩]
        · rw [if_neg hc0, if_neg (by
            rintro ⟨c, hc, hp⟩
            rcases List.mem_cons.mp hc with rfl | hcl
            · exact hc0 hp
            · exact htail ⟨c, hcl, hp⟩)]

theorem applyBand_getD (fftSize : ℕ) (Fs : ℚ) (gs : List ℚ) (band : ℚ × ℚ × ℚ)
    (b : ℕ) (hb : b < gs.length) (hlen : gs.length = fftSize) :
    (applyBand fftSize Fs gs band).getD b 1
      = if BandWrites fftSize Fs band b then band.2.2 else gs.getD b 1 := by
  unfold applyBand
  by_cases hok : binMinOf fftSize Fs band.1 ≤ binMaxOf fftSize Fs band.2.1
  · rw [if_pos hok, foldl_setBinGain_getD fftSize band.2.2 b _ gs hb]
    have hminnn : (0 : ℤ) ≤ binMinOf fftSize Fs band.1 := le_max_left _ _
    have hmaxlt : binMaxOf fftSize Fs band.2.1 ≤ (fftSize : ℤ) - 1 := min_le_left _ _
    have hmem : ∀ c : ℕ, (c ∈ List.range' (binMinOf fftSize Fs band.1).toNat
          ((binMaxOf fftSize Fs band.2.1).toNat + 1
            - (binMinOf fftSize Fs band.1).toNat))
        ↔ (binMinOf fftSize Fs band.1 ≤ (c : ℤ)
            ∧ (c : ℤ) ≤ binMaxOf fftSize Fs band.2.1) := by
      intro c
      rw [List.mem_range'_1]
      omega
    by_cases hw : BandWrites fftSize Fs band b
    · rw [if_pos hw, if_pos ?_]
      rcases hw.2 with hdir | hmir
      · exact ⟨b, (hmem b).mpr hdir, Or.inl rfl⟩
      · refine ⟨fftSize - b, (hmem _).mpr ⟨hmir.2.2.1, hmir.2.2.2⟩, Or.inr ⟨?_, hmir.2.1, ?_⟩⟩
        · omega
        · omega
    · rw [if_neg hw, if_neg ?_]
      rintro ⟨c, hc, hp⟩
      rw [hmem c] at hc
      apply hw
      refine ⟨hok, ?_⟩
      rcases hp with rfl | ⟨hc1, hc2, rfl⟩
      · exact Or.inl hc
      · refine Or.inr ⟨by omega, by
          have : fftSize - (fftSize - c) = c := by omega
          rw [this]
          exact hc2, by
          have : fftSize - (fftSize - c) = c := by omega
          rw [this]
          exact hc.1, by
          have : fftSize - (fftSize - c) = c := by omega
          rw [this]
          exact hc.2⟩
  · rw [if_neg hok, if_neg (fun hw => hok hw.1)]

/-- The last band in list order that writes a given bin (computed as the
fold that createBinGainsFromRanges performs implicitly). -/
def findLastWriter (fftSize : ℕ) (Fs : ℚ) (b : ℕ) (ranges : List (ℚ × ℚ × ℚ)) :
    Option (ℚ × ℚ × ℚ) :=
  ranges.foldl
    (fun acc band => if BandWrites fftSize Fs band b then some band else acc) none

/-- Pointwise last-write-wins characterisation of the whole band loop:
bin b holds the gain of the last band that writes it (directly or via
mirroring), and 1.0 if no band writes it. -/
theorem createBinGains_lastWrite (fftSize : ℕ) (Fs : ℚ) (rs : List (ℚ × ℚ × ℚ))
    (b : ℕ) (hb : b < fftSize) :
    (createBinGainsFromRanges fftSize rs Fs).getD b 1
      = (findLastWriter fftSize Fs b rs).elim 1 (fun band => band.2.2) := by
  induction rs using List.reverseRecOn with
  | nil =>
      unfold createBinGainsFromRanges findLastWriter
      simp only [List.foldl_nil]
      rw [List.getD_eq_getElem _ _ (by simpa using hb), List.getElem_replicate]
      rfl
  | append_singleton rs r ih =>
      have h1 : createBinGainsFromRanges fftSize (rs ++ [r]) Fs
          = applyBand fftSize Fs (createBinGainsFromRanges fftSize rs Fs) r := by
        unfold createBinGainsFromRanges
        rw [List.foldl_append]
        rfl
      have h2 : findLastWriter fftSize Fs b (rs ++ [r])
          = if BandWrites fftSize Fs r b then some r
            else findLastWriter fftSize Fs b rs := by
        unfold findLastWriter
        rw [List.foldl_append]
        rfl
      rw [h1, h2]
      rw [applyBand_getD fftSize Fs _ r b
        (by rw [createBinGainsFromRanges_length]; exact hb)
        (createBinGainsFromRanges_length fftSize rs Fs)]
      by_cases hw : BandWrites fftSize Fs r b
      · rw [if_pos hw, if_pos hw]
        rfl
      · rw [if_neg hw, if_neg hw, ih]

/-- In a list sorted by ascending start frequency, if w writes bin b and
every other writer has a strictly smaller start frequency, then w is the
last writer. -/
theorem findLastWriter_sorted (fftSize : ℕ) (Fs : ℚ) (b : ℕ) :
    ∀ l : List (ℚ × ℚ × ℚ), l.Pairwise (fun a c => a.1 ≤ c.1) →
      ∀ w ∈ l, BandWrites fftSize Fs w b →
        (∀ w' ∈ l, BandWrites fftSize Fs w' b → w' ≠ w → w'.1 < w.1) →
        findLastWriter fftSize Fs b l = some w := by
  intro l
  induction l using List.reverseRecOn with
  | nil =>
      intro _ w hw
      exact absurd hw (List.not_mem_nil w)
  | append_singleton l r ih =>
      intro hsort w hw hwr hmax
      have hfold : findLastWriter fftSize Fs b (l ++ [r])
          = if BandWrites fftSize Fs r b then some r
            else findLastWriter fftSize Fs b l := by
        unfold findLastWriter
        rw [List.foldl_append]
        rfl
      rw [hfold]
      obtain ⟨hpl, _, hlr⟩ := List.pairwise_append.mp hsort
      by_cases hr : BandWrites fftSize Fs r b
      · rw [if_pos hr]
        by_cases hrw : r = w
        · rw [hrw]
        · have hlt : r.1 < w.1 := hmax r (by simp) hr hrw
          have hwl : w ∈ l := by
            rcases List.mem_append.mp hw with h | h
            · exact h
            · simp at h
              exact absurd h.symm hrw
          have hle : w.1 ≤ r.1 := hlr w hwl r (by simp)
          exact absurd hlt (by linarith)
      · rw [if_neg hr]
        have hwl : w ∈ l := by
          rcases List.mem_append.mp hw with h | h
          · exact h
          · simp at h
            subst h
            exact absurd hwr hr
        exact ih hpl w hwl hwr
          (fun w' hw' hb' hne => hmax w' (List.mem_append_left _ hw') hb' hne)

/-- Writing gain 1 never changes the all-ones vector. -/
theorem set_replicate_self (n i : ℕ) (a : ℚ) :
    (List.replicate n a).set i a = List.replicate n a := by
  apply List.ext_getElem (by simp)
  intro j h1 h2
  rw [List.getElem_set]
  by_cases h : i = j
  · rw [if_pos h, List.getElem_replicate]
  · rw [if_neg h]

theorem createBinGains_all_one (fftSize : ℕ) (rs : List (ℚ × ℚ × ℚ)) (Fs : ℚ)
    (hall : ∀ r ∈ rs, r.2.2 = 1) :
    createBinGainsFromRanges fftSize rs Fs = List.replicate fftSize 1 := by
  have hset : ∀ c, setBinGain fftSize 1 (List.replicate fftSize 1) c
      = List.replicate fftSize 1 := by
    intro c
    unfold setBinGain
    by_cases h : 0 < c ∧ 2 * c < fftSize
    · rw [if_pos h, set_replicate_self, set_replicate_self]
    · rw [if_neg h, set_replicate_self]
  have hfold : ∀ l : List ℕ,
      l.foldl (setBinGain fftSize 1) (List.replicate fftSize 1)
        = List.replicate fftSize 1 := by
    intro l
    induction l with
    | nil => rfl
    | cons c l ih =>
        rw [List.foldl_cons, hset, ih]
  have happ : ∀ r : ℚ × ℚ × ℚ, r.2.2 = 1 →
      applyBand fftSize Fs (List.replicate fftSize 1) r
        = List.replicate fftSize 1 := by
    intro r hr
    unfold applyBand
    by_cases h : binMinOf fftSize Fs r.1 ≤ binMaxOf fftSize Fs r.2.1
    · rw [if_pos h, hr, hfold]
    · rw [if_neg h]
  unfold createBinGainsFromRanges
  induction rs with
  | nil => rfl
  | cons r rs ih =>
      rw [List.foldl_cons, happ r (hall r (List.mem_cons_self r rs))]
      exact ih (fun r' hr' => hall r' (List.mem_cons_of_mem r hr'))

/-- Reading a list back out through getD over its index range. -/
theorem map_range_getD (x : List ℝ) :
    (List.range x.length).map (fun n => x.getD n 0) = x := by
  apply List.ext_getElem (by simp)
  intro i h1 h2
  rw [List.getElem_map, List.getElem_range, List.getD_eq_getElem x 0 h2]

theorem getD_replicate_zero (m n : ℕ) : (List.replicate m (0 : ℝ)).getD n 0 = 0 := by
  rcases Nat.lt_or_ge n m with h | h
  · rw [List.getD_eq_getElem _ _ (by simpa using h), List.getElem_replicate]
  · rw [List.getD_eq_getElem?_getD, List.getElem?_eq_none (by simpa using h)]
    rfl

/-- Round trip: the inverse transform of the forward transform of a real
power-of-two-length signal reconstructs the signal exactly (in exact real
arithmetic), with an identically zero imaginary part. -/
theorem fftReal_ifft (x : List ℝ) (K : ℕ) (hx : x.length = 2 ^ K) :
    ∃ F : ComplexArray,
      fftReal x = Except.ok F ∧ F.real.length = 2 ^ K ∧ F.imag.length = 2 ^ K ∧
        ifft F = Except.ok ⟨x, List.replicate (2 ^ K) 0⟩ := by
  have hF := fft_ok ⟨x, List.replicate x.length 0⟩ K hx (by simp [hx])
  set xs := toSamples ⟨x, List.replicate x.length 0⟩ with hxs
  set F : ComplexArray :=
    ⟨(List.range (2 ^ K)).map (fun j => (dft (2 ^ K) xs j).re),
     (List.range (2 ^ K)).map (fun j => (dft (2 ^ K) xs j).im)⟩ with hFdef
  have hFr : F.real.length = 2 ^ K := by simp [hFdef]
  have hFi : F.imag.length = 2 ^ K := by simp [hFdef]
  refine ⟨F, ?_, hFr, hFi, ?_⟩
  · unfold fftReal constructComplexArray
    exact hF
  · have h2 := ifft_spec F K hFr hFi
    have hTS : ∀ k, k < 2 ^ K → toSamples F k = dft (2 ^ K) xs k := by
      intro k hk
      unfold toSamples
      apply Complex.ext
      · show F.real.getD k 0 = _
        rw [hFdef]
        exact getD_map_range _ _ _ _ hk
      · show F.imag.getD k 0 = _
        rw [hFdef]
        exact getD_map_range _ _ _ _ hk
    have hidft : ∀ n, n < 2 ^ K → idft (2 ^ K) (toSamples F) n = xs n := by
      intro n hn
      have hsum : idft (2 ^ K) (toSamples F) n = idft (2 ^ K) (dft (2 ^ K) xs) n := by
        unfold idft
        congr 1
        apply Finset.sum_congr rfl
        intro k hk
        rw [Finset.mem_range] at hk
        rw [hTS k hk]
      rw [hsum, idft_dft (2 ^ K) (by positivity) xs n hn]
    rw [h2]
    congr 1
    have hreal : (List.range (2 ^ K)).map
        (fun n => (idft (2 ^ K) (toSamples F) n).re) = x := by
      have hpt : ∀ n ∈ List.range (2 ^ K),
          (idft (2 ^ K) (toSamples F) n).re = x.getD n 0 := by
        intro n hn
        rw [List.mem_range] at hn
        rw [hidft n hn]
        rfl
      rw [List.map_congr_left hpt, ← hx, map_range_getD]
    have himag : (List.range (2 ^ K)).map
        (fun n => -(idft (2 ^ K) (toSamples F) n).im) = List.replicate (2 ^ K) 0 := by
      have hpt : ∀ n ∈ List.range (2 ^ K),
          -(idft (2 ^ K) (toSamples F) n).im = 0 := by
        intro n hn
        rw [List.mem_range] at hn
        rw [hidft n hn]
        show -(xs n).im = 0
        have : (xs n).im = (List.replicate x.length (0 : ℝ)).getD n 0 := rfl
        rw [this, getD_replicate_zero]
        exact neg_zero
      rw [List.map_congr_left hpt]
      rw [List.eq_replicate_iff]
      constructor
      · simp
      · intro v hv
        rw [List.mem_map] at hv
        obtain ⟨n, _, hn⟩ := hv
        exact hn.symm
    rw [hreal, himag]

theorem getD_replicate_one (m n : ℕ) : (List.replicate m (1 : ℚ)).getD n 1 = 1 := by
  rcases Nat.lt_or_ge n m with h | h
  · rw [List.getD_eq_getElem _ _ (by simpa using h), List.getElem_replicate]
  · rw [List.getD_eq_getElem?_getD, List.getElem?_eq_none (by simpa using h)]
    rfl

/-- Multiplying every spectral sample by gain 1 reproduces the input
arrays (when the two component arrays have equal length). -/
theorem applyGains_one (F : ComplexArray) (hlen : F.imag.length = F.real.length) :
    applyGains F (List.replicate F.real.length 1) = F := by
  unfold applyGains
  have hre : (List.range F.real.length).map
      (fun i => F.real.getD i 0 * (((List.replicate F.real.length (1 : ℚ)).getD i 1 : ℚ) : ℝ))
      = F.real := by
    have hpt : ∀ i ∈ List.range F.real.length,
        F.real.getD i 0 * (((List.replicate F.real.length (1 : ℚ)).getD i 1 : ℚ) : ℝ)
          = F.real.getD i 0 := by
      intro i _
      rw [getD_replicate_one]
      norm_num
    rw [List.map_congr_left hpt, map_range_getD]
  have him : (List.range F.real.length).map
      (fun i => F.imag.getD i 0 * (((List.replicate F.real.length (1 : ℚ)).getD i 1 : ℚ) : ℝ))
      = F.imag := by
    have hpt : ∀ i ∈ List.range F.real.length,
        F.imag.getD i 0 * (((List.replicate F.real.length (1 : ℚ)).getD i 1 : ℚ) : ℝ)
          = F.imag.getD i 0 := by
      intro i _
      rw [getD_replicate_one]
      norm_num
    rw [List.map_congr_left hpt, ← hlen, map_range_getD]
  rw [hre, him]

/-- Equalizing with the single full-range unit band (0, q, 1) leaves the
spectrum untouched and returns the inverse transform of the input. -/
theorem equalizer_unit_band (F : ComplexArray) (K : ℕ)
    (hr : F.real.length = 2 ^ K) (hi : F.imag.length = 2 ^ K) (q Fs : ℚ) :
    equalizer F [(0, q, 1)] Fs
      = Except.ok
          ((List.range (2 ^ K)).map (fun n => (idft (2 ^ K) (toSamples F) n).re), F) := by
  unfold equalizer
  have hones : createBinGainsFromRanges F.real.length [(0, q, 1)] Fs
      = List.replicate F.real.length 1 := by
    apply createBinGains_all_one
    intro r hrr
    simp at hrr
    rw [hrr]
  rw [hones, applyGains_one F (by rw [hr, hi])]
  rw [ifft_spec F K hr hi]
  rfl

/-! ## computeSTFT frame accounting -/

theorem frameStartsAux_mem (L F H : ℕ) :
    ∀ fuel start s, s ∈ frameStartsAux L F H fuel start → s + F ≤ L := by
  intro fuel
  induction fuel with
  | zero =>
      intro start s hs
      exact absurd hs (List.not_mem_nil s)
  | succ fuel ih =>
      intro start s hs
      rw [frameStartsAux] at hs
      by_cases h : start + F ≤ L
      · rw [if_pos h] at hs
        rcases List.mem_cons.mp hs with rfl | hs'
        · exact h
        · exact ih (start + H) s hs'
      · rw [if_neg h] at hs
        exact absurd hs (List.not_mem_nil s)

theorem frameStartsAux_length (L F H : ℕ) (hH : 0 < H) :
    ∀ fuel start, L + 1 ≤ fuel + start →
      (frameStartsAux L F H fuel start).length
        = if start + F ≤ L then (L - F - start) / H + 1 else 0 := by
  intro fuel
  induction fuel with
  | zero =>
      intro start hfs
      rw [if_neg (by omega)]
      rfl
  | succ fuel ih =>
      intro start hfs
      rw [frameStartsAux]
      by_cases hsf : start + F ≤ L
      · rw [if_pos hsf, if_pos hsf, List.length_cons,
          ih (start + H) (by omega)]
        by_cases h2 : start + H + F ≤ L
        · rw [if_pos h2]
          have heq : L - F - (start + H) = L - F - start - H := by omega
          rw [heq]
          have hd : H ≤ L - F - start := by omega
          have hdiv := Nat.div_eq_sub_div hH hd
          omega
        · rw [if_neg h2]
          have hlt : L - F - start < H := by omega
          rw [Nat.div_eq_of_lt hlt]
      · rw [if_neg hsf, if_neg hsf]
        rfl

theorem frameStarts_length (L F H : ℕ) (hH : 0 < H) :
    (frameStarts L F H).length = if F ≤ L then (L - F) / H + 1 else 0 := by
  unfold frameStarts
  rw [frameStartsAux_length L F H hH (L + 1) 0 (by omega)]
  norm_num

theorem frameStarts_mem (L F H : ℕ) (s : ℕ) (hs : s ∈ frameStarts L F H) :
    s + F ≤ L :=
  frameStartsAux_mem L F H (L + 1) 0 s hs

theorem mapM_except_ok {α β : Type} (f : α → Except String β) (g : α → β) :
    ∀ l : List α, (∀ a ∈ l, f a = Except.ok (g a)) →
      l.mapM f = Except.ok (l.map g) := by
  intro l
  induction l with
  | nil => intro _; rfl
  | cons a l ih =>
      intro h
      rw [List.mapM_cons, h a (List.mem_cons_self a l),
        ih (fun b hb => h b (List.mem_cons_of_mem _ hb))]
      rfl

theorem quantizeSlice_length (F : ℕ) (maxMag : ℝ) (spec : ComplexArray) :
    (quantizeSlice F maxMag spec).length = F / 2 := by
  unfold quantizeSlice
  rw [List.length_map, List.length_range]

theorem stftFrame_real_length (data : List ℝ) (F s : ℕ) (h : s + F ≤ data.length) :
    (stftFrame data F s).real.length = F := by
  unfold stftFrame hannWindow
  simp only [List.length_zipWith, List.length_take, List.length_drop,
    List.length_map, List.length_range]
  omega

theorem stftFrame_imag_length (data : List ℝ) (F s : ℕ) :
    (stftFrame data F s).imag.length = F := by
  unfold stftFrame
  exact List.length_replicate F 0

theorem fft_nil : fft ⟨[], []⟩ = Except.ok ⟨[], []⟩ := rfl

/-- When every frame transforms successfully, computeSTFT returns the
quantized slices of all frames. -/
theorem computeSTFT_ok_of_frames (data : List ℝ) (F H : ℕ) (g : ℕ → ComplexArray)
    (hfr : ∀ s ∈ frameStarts data.length F H,
      fft (stftFrame data F s) = Except.ok (g s)) :
    computeSTFT data F H = Except.ok
      (((frameStarts data.length F H).map g).map
        (quantizeSlice F (((frameStarts data.length F H).map g).foldl
          (fun acc spec => frameMaxMag F spec acc) magFloor))) := by
  unfold computeSTFT
  rw [mapM_except_ok _ g _ hfr]
  rfl

/-- computeSTFT succeeds whenever the frame length is accepted by the
transform (zero or a power of two), with one slice per frame and F/2
entries per slice. -/
theorem computeSTFT_ok (data : List ℝ) (F H : ℕ)
    (hF : F = 0 ∨ ∃ k, F = 2 ^ k) :
    ∃ slices, computeSTFT data F H = Except.ok slices ∧
      slices.length = (frameStarts data.length F H).length ∧
      ∀ s ∈ slices, s.length = F / 2 := by
  have hfr : ∃ g : ℕ → ComplexArray, ∀ s ∈ frameStarts data.length F H,
      fft (stftFrame data F s) = Except.ok (g s) := by
    rcases hF with hF0 | ⟨k, hk⟩
    · refine ⟨fun _ => ⟨[], []⟩, ?_⟩
      intro s hs
      have hfr0 : stftFrame data F s = ⟨[], []⟩ := by
        subst hF0
        unfold stftFrame
        simp
      rw [hfr0]
      exact fft_nil
    · refine ⟨fun s => ⟨(List.range (2 ^ k)).map
          (fun j => (dft (2 ^ k) (toSamples (stftFrame data F s)) j).re),
        (List.range (2 ^ k)).map
          (fun j => (dft (2 ^ k) (toSamples (stftFrame data F s)) j).im)⟩, ?_⟩
      intro s hs
      exact fft_ok (stftFrame data F s) k
        (by rw [stftFrame_real_length data F s (frameStarts_mem _ _ _ s hs), hk])
        (by rw [stftFrame_imag_length, hk])
  obtain ⟨g, hg⟩ := hfr
  refine ⟨_, computeSTFT_ok_of_frames data F H g hg, ?_, ?_⟩
  · rw [List.length_map, List.length_map]
  · intro s hs
    rw [List.mem_map] at hs
    obtain ⟨spec, _, hspec⟩ := hs
    rw [← hspec, quantizeSlice_length]

theorem isPow2_three : isPow2 3 = false := by
  rw [isPow2]
  norm_num

/-- The fft length test fails exactly for nonzero lengths that are not a
power of two (length 0 slips through because Math.round(-Infinity) equals
-Infinity). -/
theorem jsPow2Check_false_iff (n : ℕ) :
    jsPow2Check n = false ↔ n ≠ 0 ∧ ¬∃ k, n = 2 ^ k := by
  unfold jsPow2Check
  rw [Bool.or_eq_false_iff]
  constructor
  · rintro ⟨h1, h2⟩
    refine ⟨by simpa using h1, ?_⟩
    intro hk
    rw [(isPow2_iff n).mpr hk] at h2
    simp at h2
  · rintro ⟨h1, h2⟩
    refine ⟨by simpa using h1, ?_⟩
    cases hb : isPow2 n
    · rfl
    · exact absurd ((isPow2_iff n).mp hb) h2

theorem applyBand_skip (fftSize : ℕ) (Fs : ℚ) (gs : List ℚ) (bad : ℚ × ℚ × ℚ)
    (hbad : binMaxOf fftSize Fs bad.2.1 < binMinOf fftSize Fs bad.1) :
    applyBand fftSize Fs gs bad = gs := by
  unfold applyBand
  rw [if_neg (not_le.mpr hbad)]

/-- Under the Nyquist restriction, a band writes bin b exactly when it
writes the mirrored bin fftSize - b (for 0 < b < fftSize/2). -/
theorem bandWrites_mirror (K : ℕ) (Fs : ℚ) (hFs : 0 < Fs) (r : ℚ × ℚ × ℚ)
    (hNyq : r.2.1 ≤ Fs / 2) (b : ℕ) (hb0 : 0 < b) (hbN : 2 * b < 2 ^ K) :
    (BandWrites (2 ^ K) Fs r b ↔ BandWrites (2 ^ K) Fs r (2 ^ K - b)) := by
  have hK1 : 1 ≤ K := by
    by_contra h
    push_neg at h
    interval_cases K
    omega
  have hNsplit : (2 : ℕ) ^ K = 2 * 2 ^ (K - 1) := by
    have hps := pow_succ 2 (K - 1)
    have hKK : K - 1 + 1 = K := by omega
    rw [hKK] at hps
    omega
  have hFs' : Fs ≠ 0 := ne_of_gt hFs
  have hmin0 : (0 : ℤ) ≤ binMinOf (2 ^ K) Fs r.1 := le_max_left _ _
  have hmaxNyq : binMaxOf (2 ^ K) Fs r.2.1 ≤ ((2 ^ (K - 1) : ℕ) : ℤ) := by
    have hceil : ⌈r.2.1 * ((2 ^ K : ℕ) : ℚ) / Fs⌉ ≤ ((2 ^ (K - 1) : ℕ) : ℤ) := by
      rw [Int.ceil_le]
      have hmul : r.2.1 * ((2 ^ K : ℕ) : ℚ) ≤ (Fs / 2) * ((2 ^ K : ℕ) : ℚ) :=
        mul_le_mul_of_nonneg_right hNyq (by positivity)
      have hdivle : r.2.1 * ((2 ^ K : ℕ) : ℚ) / Fs
          ≤ (Fs / 2) * ((2 ^ K : ℕ) : ℚ) / Fs :=
        (div_le_div_right hFs).mpr hmul
      have hval : (Fs / 2) * ((2 ^ K : ℕ) : ℚ) / Fs = (((2 ^ (K - 1) : ℕ) : ℤ) : ℚ) := by
        rw [hNsplit]
        push_cast
        field_simp
        ring
      rw [← hval]
      exact hdivle
    exact le_trans (min_le_right _ _) hceil
  unfold BandWrites
  omega

theorem findLastWriter_congr (N : ℕ) (Fs : ℚ) (b b' : ℕ) (rs : List (ℚ × ℚ × ℚ))
    (h : ∀ r ∈ rs, BandWrites N Fs r b ↔ BandWrites N Fs r b') :
    findLastWriter N Fs b rs = findLastWriter N Fs b' rs := by
  unfold findLastWriter
  have hgen : ∀ (l : List (ℚ × ℚ × ℚ)) (acc : Option (ℚ × ℚ × ℚ)),
      (∀ r ∈ l, BandWrites N Fs r b ↔ BandWrites N Fs r b') →
      l.foldl (fun acc band => if BandWrites N Fs band b then some band else acc) acc
        = l.foldl (fun acc band => if BandWrites N Fs band b' then some band else acc) acc := by
    intro l
    induction l with
    | nil => intro acc _; rfl
    | cons r l ih =>
        intro acc hl
        rw [List.foldl_cons, List.foldl_cons,
          if_congr (hl r (List.mem_cons_self r l)) rfl rfl]
        exact ih _ (fun r' hr' => hl r' (List.mem_cons_of_mem r hr'))
  exact hgen rs none h

/-! ## The claims -/

/-- C2 counterexample: the single-frequency control (1.5 Hz, gain 2) with
fftSize 8 and sample rate 8 does not assign the gain only to the rounded
bin round(1.5) = 2: bin 1 (the floor) also receives gain 2, so more than
the one claimed bin is assigned. -/
theorem claim_C2_counterexample :
    (createBinGains 8 [(3 / 2, 2)] 8).getD 1 1 = 2
    ∧ round ((3 / 2 : ℚ) * 8 / 8) = 2
    ∧ (1 : ℕ) ≠ 2 := by
  have hmin : binMinOf 8 8 (3 / 2) = 1 := by
    unfold binMinOf
    norm_num
  have hmax : binMaxOf 8 8 (3 / 2) = 2 := by
    have hc : (⌈(3 : ℚ) / 2⌉ : ℤ) = 2 := by
      rw [Int.ceil_eq_iff]
      norm_num
    unfold binMaxOf
    norm_num [hc]
  have hBW : BandWrites 8 8 ((3 / 2 : ℚ), (3 / 2 : ℚ), 2) 1 := by
    unfold BandWrites
    refine ⟨?_, Or.inl ⟨?_, ?_⟩⟩
    · show binMinOf 8 8 (3 / 2) ≤ binMaxOf 8 8 (3 / 2)
      rw [hmin, hmax]
      norm_num
    · show binMinOf 8 8 (3 / 2) ≤ (1 : ℤ)
      rw [hmin]
    · show ((1 : ℕ) : ℤ) ≤ binMaxOf 8 8 (3 / 2)
      rw [hmax]
      norm_num
  refine ⟨?_, by norm_num [round_eq], by norm_num⟩
  have hdeleg : createBinGains 8 [(3 / 2, 2)] 8
      = createBinGainsFromRanges 8 [((3 / 2 : ℚ), (3 / 2 : ℚ), (2 : ℚ))] 8 := rfl
  rw [hdeleg,
    createBinGains_lastWrite 8 8 [((3 / 2 : ℚ), (3 / 2 : ℚ), (2 : ℚ))] 1 (by norm_num)]
  unfold findLastWriter
  simp only [List.foldl_cons, List.foldl_nil]
  rw [if_pos hBW]
  rfl

/-- C2 (amended): a degenerate single-frequency control (freq, gain) sets
the gain on every bin from the floor to the ceiling of freq*N/Fs (clamped
to the valid range) and on the mirror N - b of every such bin b with
0 < b < N/2 — one direct bin exactly when freq*N/Fs is an integer — and
rounding is not used; every other bin keeps gain 1. -/
theorem claim_C2_amended (N : ℕ) (Fs f g : ℚ) (b : ℕ) (hb : b < N) :
    (createBinGains N [(f, g)] Fs).getD b 1
      = if BandWrites N Fs (f, f, g) b then g else 1 := by
  unfold createBinGains
  simp only [List.map]
  rw [createBinGains_lastWrite N Fs [(f, f, g)] b hb]
  unfold findLastWriter
  simp only [List.foldl_cons, List.foldl_nil]
  by_cases h : BandWrites N Fs (f, f, g) b
  · rw [if_pos h, if_pos h]
    rfl
  · rw [if_neg h, if_neg h]
    rfl

theorem claim_C2_amended_witness :
    1 < 8 ∧ (createBinGains 8 [(3 / 2, 2)] 8).getD 1 1
      = if BandWrites 8 8 (3 / 2, 3 / 2, 2) 1 then 2 else 1 :=
  ⟨by decide, claim_C2_amended 8 8 (3 / 2) 2 1 (by decide)⟩

/-- C3 counterexample: the band (7 Hz, 7 Hz, gain 2) satisfies
minHz ≤ maxHz and gain ≥ 0, yet with N = 8 (a power of two) and
sample rate 8 it writes only bin 7, so gain[1] = 1 but gain[8-1] = 2:
the claimed spectral symmetry fails for bands above the Nyquist
frequency. -/
theorem claim_C3_counterexample :
    ((7 : ℚ) ≤ 7 ∧ (0 : ℚ) ≤ 2)
    ∧ (createBinGainsFromRanges 8 [(7, 7, 2)] 8).getD 1 1 = 1
    ∧ (createBinGainsFromRanges 8 [(7, 7, 2)] 8).getD (8 - 1) 1 = 2
    ∧ (1 : ℚ) ≠ 2 := by
  have hmin : binMinOf 8 8 7 = 7 := by
    unfold binMinOf
    norm_num
  have hmax : binMaxOf 8 8 7 = 7 := by
    unfold binMaxOf
    norm_num
  have hBW7 : BandWrites 8 8 ((7 : ℚ), (7 : ℚ), 2) 7 := by
    unfold BandWrites
    refine ⟨?_, Or.inl ⟨?_, ?_⟩⟩
    · show binMinOf 8 8 7 ≤ binMaxOf 8 8 7
      rw [hmin, hmax]
    · show binMinOf 8 8 7 ≤ ((7 : ℕ) : ℤ)
      rw [hmin]
      norm_num
    · show ((7 : ℕ) : ℤ) ≤ binMaxOf 8 8 7
      rw [hmax]
      norm_num
  have hnBW1 : ¬BandWrites 8 8 ((7 : ℚ), (7 : ℚ), 2) 1 := by
    unfold BandWrites
    rintro ⟨-, hdir | hmir⟩
    · have h1 : binMinOf 8 8 7 ≤ ((1 : ℕ) : ℤ) := hdir.1
      rw [hmin] at h1
      norm_num at h1
    · have h2 : 2 * (8 - 1) < 8 := hmir.2.1
      norm_num at h2
  refine ⟨⟨le_refl _, by norm_num⟩, ?_, ?_, by norm_num⟩
  · rw [createBinGains_lastWrite 8 8 _ 1 (by norm_num)]
    unfold findLastWriter
    simp only [List.foldl_cons, List.foldl_nil]
    rw [if_neg hnBW1]
    rfl
  · show (createBinGainsFromRanges 8 [(7, 7, 2)] 8).getD 7 1 = 2
    rw [createBinGains_lastWrite 8 8 _ 7 (by norm_num)]
    unfold findLastWriter
    simp only [List.foldl_cons, List.foldl_nil]
    rw [if_pos hBW7]
    rfl

/-- C3 (amended): for bands within the Nyquist range (maxHz ≤ Fs/2, with
minHz ≤ maxHz and gain ≥ 0), the gain vector of createBinGainsFromRanges
satisfies gain[b] = gain[N - b] for every bin 0 < b < N/2 (N = 2^K). -/
theorem claim_C3_amended (K : ℕ) (Fs : ℚ) (hFs : 0 < Fs)
    (rs : List (ℚ × ℚ × ℚ))
    (hbands : ∀ r ∈ rs, r.1 ≤ r.2.1 ∧ 0 ≤ r.2.2 ∧ r.2.1 ≤ Fs / 2)
    (b : ℕ) (hb0 : 0 < b) (hbN : 2 * b < 2 ^ K) :
    (createBinGainsFromRanges (2 ^ K) rs Fs).getD b 1
      = (createBinGainsFromRanges (2 ^ K) rs Fs).getD (2 ^ K - b) 1 := by
  have hbK : b < 2 ^ K := by omega
  have hbK' : 2 ^ K - b < 2 ^ K := by omega
  rw [createBinGains_lastWrite _ _ _ b hbK,
    createBinGains_lastWrite _ _ _ _ hbK',
    findLastWriter_congr (2 ^ K) Fs b (2 ^ K - b) rs
      (fun r hr => bandWrites_mirror K Fs hFs r (hbands r hr).2.2 b hb0 hbN)]

theorem claim_C3_amended_witness :
    ((0 : ℚ) < 4
      ∧ (∀ r ∈ [((1 : ℚ), (2 : ℚ), (1 / 2 : ℚ))], r.1 ≤ r.2.1 ∧ 0 ≤ r.2.2 ∧ r.2.1 ≤ 4 / 2)
      ∧ 0 < 1 ∧ 2 * 1 < 2 ^ 2)
    ∧ (createBinGainsFromRanges (2 ^ 2) [((1 : ℚ), (2 : ℚ), (1 / 2 : ℚ))] 4).getD 1 1
      = (createBinGainsFromRanges (2 ^ 2) [((1 : ℚ), (2 : ℚ), (1 / 2 : ℚ))] 4).getD
          (2 ^ 2 - 1) 1 := by
  have hbands : ∀ r ∈ [((1 : ℚ), (2 : ℚ), (1 / 2 : ℚ))],
      r.1 ≤ r.2.1 ∧ 0 ≤ r.2.2 ∧ r.2.1 ≤ (4 : ℚ) / 2 := by
    rw [List.forall_mem_singleton]
    norm_num
  exact ⟨⟨by norm_num, hbands, by decide, by decide⟩,
    claim_C3_amended 2 4 (by norm_num) _ hbands 1 (by decide) (by decide)⟩

/-- C5: last-write-wins characterisation of createBinGainsFromRanges —
bin b holds the gain of the last band in list order whose written bin set
(the clamped floor/ceil range, plus mirrors) contains b, and the default
1.0 if none does; and a band whose clamped range is empty
(binMin > binMax) is skipped without error, contributing nothing. -/
theorem claim_C5 (fftSize : ℕ) (Fs : ℚ) (rs : List (ℚ × ℚ × ℚ)) (b : ℕ)
    (hb : b < fftSize) :
    ((createBinGainsFromRanges fftSize rs Fs).getD b 1
        = (findLastWriter fftSize Fs b rs).elim 1 (fun band => band.2.2))
    ∧ (∀ rs₁ rs₂ bad, rs = rs₁ ++ bad :: rs₂ →
        binMaxOf fftSize Fs bad.2.1 < binMinOf fftSize Fs bad.1 →
        createBinGainsFromRanges fftSize rs Fs
          = createBinGainsFromRanges fftSize (rs₁ ++ rs₂) Fs) := by
  constructor
  · exact createBinGains_lastWrite fftSize Fs rs b hb
  · intro rs₁ rs₂ bad hdecomp hbad
    subst hdecomp
    unfold createBinGainsFromRanges
    rw [List.foldl_append, List.foldl_append, List.foldl_cons,
      applyBand_skip fftSize Fs _ bad hbad]

theorem claim_C5_witness :
    2 < 8
    ∧ (((createBinGainsFromRanges 8 [((1 : ℚ), (2 : ℚ), (3 : ℚ)), (0, 5, 7)] 8).getD 2 1
          = (findLastWriter 8 8 2 [((1 : ℚ), (2 : ℚ), (3 : ℚ)), (0, 5, 7)]).elim 1
              (fun band => band.2.2))
        ∧ (∀ rs₁ rs₂ bad,
            [((1 : ℚ), (2 : ℚ), (3 : ℚ)), (0, 5, 7)] = rs₁ ++ bad :: rs₂ →
            binMaxOf 8 8 bad.2.1 < binMinOf 8 8 bad.1 →
            createBinGainsFromRanges 8 [((1 : ℚ), (2 : ℚ), (3 : ℚ)), (0, 5, 7)] 8
              = createBinGainsFromRanges 8 (rs₁ ++ rs₂) 8)) :=
  ⟨by decide, claim_C5 8 8 [((1 : ℚ), (2 : ℚ), (3 : ℚ)), (0, 5, 7)] 2 (by decide)⟩

/-- C6 counterexample: two band lists that are permutations of each other
(both bands start at 0 Hz) produce different gain vectors through
processAudio's sort-then-equalize pipeline, because the stable sort keeps
the caller's relative order of bands with equal start frequency and the
later band wins: the result is not independent of the caller's order. -/
theorem claim_C6_counterexample :
    (processAudioBinGains 4 [((0 : ℚ), (3 : ℚ), (2 : ℚ)), (0, 3, 3)] 4).getD 0 1 = 3
    ∧ (processAudioBinGains 4 [((0 : ℚ), (3 : ℚ), (3 : ℚ)), (0, 3, 2)] 4).getD 0 1 = 2
    ∧ List.Perm [((0 : ℚ), (3 : ℚ), (2 : ℚ)), (0, 3, 3)]
        [((0 : ℚ), (3 : ℚ), (3 : ℚ)), (0, 3, 2)]
    ∧ (3 : ℚ) ≠ 2 := by
  have hminv : binMinOf 4 4 0 = 0 := by
    unfold binMinOf
    norm_num
  have hmaxv : binMaxOf 4 4 3 = 3 := by
    unfold binMaxOf
    norm_num
  have hBW : ∀ g : ℚ, BandWrites 4 4 ((0 : ℚ), (3 : ℚ), g) 0 := by
    intro g
    unfold BandWrites
    refine ⟨?_, Or.inl ⟨?_, ?_⟩⟩
    · show binMinOf 4 4 0 ≤ binMaxOf 4 4 3
      rw [hminv, hmaxv]
      norm_num
    · show binMinOf 4 4 0 ≤ ((0 : ℕ) : ℤ)
      rw [hminv]
      norm_num
    · show ((0 : ℕ) : ℤ) ≤ binMaxOf 4 4 3
      rw [hmaxv]
      norm_num
  have hsort1 : sortRanges [((0 : ℚ), (3 : ℚ), (2 : ℚ)), (0, 3, 3)]
      = [((0 : ℚ), (3 : ℚ), (2 : ℚ)), (0, 3, 3)] := by
    apply List.mergeSort_of_sorted
    simp
  have hsort2 : sortRanges [((0 : ℚ), (3 : ℚ), (3 : ℚ)), (0, 3, 2)]
      = [((0 : ℚ), (3 : ℚ), (3 : ℚ)), (0, 3, 2)] := by
    apply List.mergeSort_of_sorted
    simp
  refine ⟨?_, ?_, by decide, by norm_num⟩
  · unfold processAudioBinGains
    rw [hsort1, createBinGains_lastWrite 4 4 _ 0 (by norm_num)]
    unfold findLastWriter
    simp only [List.foldl_cons, List.foldl_nil]
    rw [if_pos (hBW 3)]
    rfl
  · unfold processAudioBinGains
    rw [hsort2, createBinGains_lastWrite 4 4 _ 0 (by norm_num)]
    unfold findLastWriter
    simp only [List.foldl_cons, List.foldl_nil]
    rw [if_pos (hBW 2)]
    rfl

/-- C6 (amended): processAudio stably sorts the caller's bands by
ascending start frequency before invoking the equalizer; consequently,
whenever one covering band has a strictly larger start frequency than
every other band covering the bin, that band's gain survives — a
condition on the band set only, independent of the caller's ordering.
(With equal start frequencies the stable sort preserves caller order, so
the caller's later band wins instead.) -/
theorem claim_C6_amended (fftSize : ℕ) (Fs : ℚ) (ranges : List (ℚ × ℚ × ℚ))
    (b : ℕ) (hb : b < fftSize) (w : ℚ × ℚ × ℚ) (hw : w ∈ ranges)
    (hwr : BandWrites fftSize Fs w b)
    (hmax : ∀ w' ∈ ranges, BandWrites fftSize Fs w' b → w' ≠ w → w'.1 < w.1) :
    (processAudioBinGains fftSize ranges Fs).getD b 1 = w.2.2 := by
  unfold processAudioBinGains
  rw [createBinGains_lastWrite _ _ _ b hb]
  have hsorted : (sortRanges ranges).Pairwise (fun a c => a.1 ≤ c.1) := by
    have hs := @List.sorted_mergeSort (ℚ × ℚ × ℚ)
      (fun a c : ℚ × ℚ × ℚ => decide (a.1 ≤ c.1))
      (fun a c d hab hbc => by
        simp only [decide_eq_true_eq] at *
        exact le_trans hab hbc)
      (fun a c => by
        simp only [Bool.or_eq_true, decide_eq_true_eq]
        exact le_total a.1 c.1)
      ranges
    exact hs.imp (fun h => by simpa using h)
  have hperm := List.mergeSort_perm ranges (fun a c => decide (a.1 ≤ c.1))
  have hw' : w ∈ sortRanges ranges := hperm.mem_iff.mpr hw
  have hmax' : ∀ w' ∈ sortRanges ranges,
      BandWrites fftSize Fs w' b → w' ≠ w → w'.1 < w.1 :=
    fun w' hmem => hmax w' (hperm.mem_iff.mp hmem)
  rw [findLastWriter_sorted fftSize Fs b (sortRanges ranges) hsorted w hw' hwr hmax']
  rfl

theorem claim_C6_amended_witness :
    (2 < 4
      ∧ ((1 : ℚ), (3 : ℚ), (5 : ℚ)) ∈ [((1 : ℚ), (3 : ℚ), (5 : ℚ)), (0, 3, 2)]
      ∧ BandWrites 4 4 ((1 : ℚ), (3 : ℚ), (5 : ℚ)) 2
      ∧ (∀ w' ∈ [((1 : ℚ), (3 : ℚ), (5 : ℚ)), (0, 3, 2)],
          BandWrites 4 4 w' 2 → w' ≠ ((1 : ℚ), (3 : ℚ), (5 : ℚ)) →
            w'.1 < ((1 : ℚ), (3 : ℚ), (5 : ℚ)).1))
    ∧ (processAudioBinGains 4 [((1 : ℚ), (3 : ℚ), (5 : ℚ)), (0, 3, 2)] 4).getD 2 1
        = 5 := by
  have hwr : BandWrites 4 4 ((1 : ℚ), (3 : ℚ), (5 : ℚ)) 2 := by
    unfold BandWrites
    refine ⟨?_, Or.inl ⟨?_, ?_⟩⟩
    · show binMinOf 4 4 1 ≤ binMaxOf 4 4 3
      unfold binMinOf binMaxOf
      norm_num
    · show binMinOf 4 4 1 ≤ ((2 : ℕ) : ℤ)
      unfold binMinOf
      norm_num
    · show ((2 : ℕ) : ℤ) ≤ binMaxOf 4 4 3
      unfold binMaxOf
      norm_num
  have hmax : ∀ w' ∈ [((1 : ℚ), (3 : ℚ), (5 : ℚ)), (0, 3, 2)],
      BandWrites 4 4 w' 2 → w' ≠ ((1 : ℚ), (3 : ℚ), (5 : ℚ)) →
        w'.1 < ((1 : ℚ), (3 : ℚ), (5 : ℚ)).1 := by
    rw [List.forall_mem_cons, List.forall_mem_singleton]
    constructor
    · intro _ hne
      exact absurd rfl hne
    · intro _ _
      norm_num
  exact ⟨⟨by norm_num, by decide, hwr, hmax⟩,
    claim_C6_amended 4 4 [((1 : ℚ), (3 : ℚ), (5 : ℚ)), (0, 3, 2)] 2 (by norm_num)
      ((1 : ℚ), (3 : ℚ), (5 : ℚ)) (by decide) hwr hmax⟩

/-- C7 counterexample: the empty input has length 0, which is not a power
of two, yet fft returns normally (JavaScript's Math.round(Math.log2 0)
=== Math.log2 0 holds, both being -Infinity), instead of failing with the
InvalidLength error the claim requires. -/
theorem claim_C7_counterexample :
    fft ⟨[], []⟩ = Except.ok ⟨[], []⟩ ∧ ¬∃ k : ℕ, (0 : ℕ) = 2 ^ k := by
  refine ⟨rfl, ?_⟩
  rintro ⟨k, hk⟩
  have : (0 : ℕ) < 2 ^ k := by positivity
  omega

/-- C7 (amended): fft fails with the InvalidLength error exactly when the
length is nonzero and not a power of two (the empty input slips through
the JS rounding test and returns normally), fails with the LengthMismatch
error when the length test passes but the component lengths differ, and
returns normally otherwise; these are the only failure modes. -/
theorem claim_C7_amended (s : ComplexArray) :
    (s.real.length ≠ 0 → (¬∃ k, s.real.length = 2 ^ k) →
        fft s = Except.error "Input size must be a power of 2.")
    ∧ ((s.real.length = 0 ∨ ∃ k, s.real.length = 2 ^ k) →
        s.real.length ≠ s.imag.length →
        fft s = Except.error "Real and imaginary components must have the same length.")
    ∧ ((s.real.length = 0 ∨ ∃ k, s.real.length = 2 ^ k) →
        s.real.length = s.imag.length → ∃ Y, fft s = Except.ok Y) := by
  have hchk : (s.real.length = 0 ∨ ∃ k, s.real.length = 2 ^ k) →
      jsPow2Check s.real.length = true := by
    intro h1
    cases hb : jsPow2Check s.real.length
    · rw [jsPow2Check_false_iff] at hb
      tauto
    · rfl
  refine ⟨?_, ?_, ?_⟩
  · intro h1 h2
    unfold fft
    rw [if_pos ((jsPow2Check_false_iff _).mpr ⟨h1, h2⟩)]
  · intro h1 h2
    unfold fft
    rw [if_neg (by rw [hchk h1]; simp), if_pos h2]
  · intro h1 h2
    unfold fft
    rw [if_neg (by rw [hchk h1]; simp), if_neg (by omega)]
    exact ⟨_, rfl⟩

theorem claim_C7_amended_witness :
    fft ⟨[0, 0, 0], []⟩ = Except.error "Input size must be a power of 2." :=
  (claim_C7_amended ⟨[0, 0, 0], []⟩).1 (by norm_num)
    (by
      rintro ⟨k, hk⟩
      have h3 : isPow2 3 = true := (isPow2_iff 3).mpr ⟨k, hk⟩
      rw [isPow2_three] at h3
      simp at h3)

/-- C9: for a power-of-two table size N = 2^K, bitReverseArray returns
the table whose entry at i is i with its K-bit binary representation
reversed, a bijection (an involution) on the index range; the table is
stored in the memo cache, and a subsequent call with the same N returns
that cached table with the cache unchanged (no recomputation). -/
theorem claim_C9 (K N : ℕ) (hN : N = 2 ^ K) (cache : ℕ → Option (List ℕ))
    (hc : CacheOK cache) :
    ((bitReverseArray cache N).1 = bitReverseCompute N)
    ∧ (∀ i, i < N → (bitReverseArray cache N).1.getD i 0 = revBits K i)
    ∧ Set.BijOn (fun i => (bitReverseArray cache N).1.getD i 0)
        {i | i < N} {i | i < N}
    ∧ ((bitReverseArray cache N).2 N = some (bitReverseArray cache N).1)
    ∧ (bitReverseArray (bitReverseArray cache N).2 N
        = ((bitReverseArray cache N).1, (bitReverseArray cache N).2)) := by
  subst hN
  have hgetD : ∀ l : List ℕ, l = bitReverseCompute (2 ^ K) →
      ∀ i, i < 2 ^ K → l.getD i 0 = revBits K i := by
    intro l hl i hi
    rw [hl]
    unfold bitReverseCompute
    rw [getD_map_range _ _ _ _ hi, bitRevTable_two_pow K i hi]
  have hbij : Set.BijOn (fun i => (bitReverseCompute (2 ^ K)).getD i 0)
      {i | i < 2 ^ K} {i | i < 2 ^ K} := by
    have hg : ∀ i, i < 2 ^ K → (bitReverseCompute (2 ^ K)).getD i 0 = revBits K i :=
      hgetD _ rfl
    refine ⟨?_, ?_, ?_⟩
    · intro i hi
      rw [Set.mem_setOf_eq] at hi ⊢
      show (bitReverseCompute (2 ^ K)).getD i 0 < 2 ^ K
      rw [hg i hi]
      exact revBits_lt K i
    · intro i hi j hj hij
      rw [Set.mem_setOf_eq] at hi hj
      have hij' : (bitReverseCompute (2 ^ K)).getD i 0
          = (bitReverseCompute (2 ^ K)).getD j 0 := hij
      rw [hg i hi, hg j hj] at hij'
      have h2 : revBits K (revBits K i) = revBits K (revBits K j) := by rw [hij']
      rwa [revBits_revBits K i hi, revBits_revBits K j hj] at h2
    · intro y hy
      rw [Set.mem_setOf_eq] at hy
      refine ⟨revBits K y, ?_, ?_⟩
      · rw [Set.mem_setOf_eq]
        exact revBits_lt K y
      · show (bitReverseCompute (2 ^ K)).getD (revBits K y) 0 = y
        rw [hg _ (revBits_lt K y), revBits_revBits K y hy]
  have hcached : ∀ (c : ℕ → Option (List ℕ)) (t : List ℕ),
      c (2 ^ K) = some t → bitReverseArray c (2 ^ K) = (t, c) := by
    intro c t h
    unfold bitReverseArray
    rw [h]
  cases hcc : cache (2 ^ K) with
  | some t =>
      have ht : t = bitReverseCompute (2 ^ K) := hc (2 ^ K) t hcc
      have hstep : bitReverseArray cache (2 ^ K) = (t, cache) := hcached cache t hcc
      refine ⟨?_, ?_, ?_, ?_, ?_⟩
      · rw [hstep]
        exact ht
      · intro i hi
        rw [hstep]
        exact hgetD t ht i hi
      · rw [hstep]
        show Set.BijOn (fun i => t.getD i 0) {i | i < 2 ^ K} {i | i < 2 ^ K}
        rw [ht]
        exact hbij
      · rw [hstep]
        exact hcc
      · rw [hstep]
        exact hcached cache t hcc
  | none =>
      have hstep : bitReverseArray cache (2 ^ K)
          = (bitReverseCompute (2 ^ K),
             fun M => if M = 2 ^ K then some (bitReverseCompute (2 ^ K)) else cache M) := by
        unfold bitReverseArray
        rw [hcc]
      have hhit : (fun M => if M = 2 ^ K then some (bitReverseCompute (2 ^ K)) else cache M)
          (2 ^ K) = some (bitReverseCompute (2 ^ K)) := by
        show (if (2 : ℕ) ^ K = 2 ^ K then some (bitReverseCompute (2 ^ K))
          else cache (2 ^ K)) = some (bitReverseCompute (2 ^ K))
        rw [if_pos rfl]
      refine ⟨?_, ?_, ?_, ?_, ?_⟩
      · rw [hstep]
      · intro i hi
        rw [hstep]
        exact hgetD _ rfl i hi
      · rw [hstep]
        exact hbij
      · rw [hstep]
        exact hhit
      · rw [hstep]
        exact hcached _ _ hhit

theorem claim_C9_witness :
    (4 = 2 ^ 2 ∧ CacheOK (fun _ => none))
    ∧ (((bitReverseArray (fun _ => none) 4).1 = bitReverseCompute 4)
      ∧ (∀ i, i < 4 → (bitReverseArray (fun _ => none) 4).1.getD i 0 = revBits 2 i)
      ∧ Set.BijOn (fun i => (bitReverseArray (fun _ => none) 4).1.getD i 0)
          {i | i < 4} {i | i < 4}
      ∧ ((bitReverseArray (fun _ => none) 4).2 4
          = some (bitReverseArray (fun _ => none) 4).1)
      ∧ (bitReverseArray (bitReverseArray (fun _ => none) 4).2 4
          = ((bitReverseArray (fun _ => none) 4).1,
             (bitReverseArray (fun _ => none) 4).2))) :=
  ⟨⟨by norm_num, fun M t h => Option.noConfusion h⟩,
    claim_C9 2 4 (by norm_num) (fun _ => none) (fun M t h => Option.noConfusion h)⟩

/-- C1 counterexample: for the spectrum X with real parts [0, 0] and
imaginary parts [1, 0] (length 2, a power of two), ifft returns -1/2 as
the imaginary part of sample 0 while the textbook inverse DFT has +1/2:
the two transforms differ in the imaginary part (ifft computes the
conjugate because it never conjugates its output). -/
theorem claim_C1_counterexample :
    (ifft ⟨[0, 0], [1, 0]⟩).toOption.map (fun Y => Y.imag.getD 0 0)
        = some (-(1 / 2) : ℝ)
    ∧ (idft 2 (toSamples ⟨[0, 0], [1, 0]⟩) 0).im = (1 / 2 : ℝ)
    ∧ (-(1 / 2) : ℝ) ≠ (1 / 2 : ℝ) := by
  have him : (idft 2 (toSamples ⟨[0, 0], [1, 0]⟩) 0).im = (1 / 2 : ℝ) := by
    unfold idft
    rw [Finset.sum_range_succ, Finset.sum_range_one]
    have h0 : toSamples ⟨[0, 0], [1, 0]⟩ 0 = ⟨0, 1⟩ := rfl
    have h1 : toSamples ⟨[0, 0], [1, 0]⟩ 1 = ⟨0, 0⟩ := rfl
    rw [h0, h1]
    norm_num [Complex.ext_iff, Complex.exp_zero, Complex.div_im, Complex.add_im,
      Complex.add_re, Complex.mul_im, Complex.mul_re, Complex.normSq_apply]
  refine ⟨?_, him, by norm_num⟩
  have hspec := ifft_spec ⟨[0, 0], [1, 0]⟩ 1 rfl rfl
  have hpow : (2 : ℕ) ^ 1 = 2 := rfl
  rw [hpow] at hspec
  rw [hspec]
  show some (((List.range 2).map
      (fun n => -(idft 2 (toSamples ⟨[0, 0], [1, 0]⟩) n).im)).getD 0 0)
    = some (-(1 / 2) : ℝ)
  rw [getD_map_range 2 0 _ 0 (by norm_num), him]

/-- C1 (amended): on a power-of-two-length complex input, ifft (conjugate
input, forward transform, divide by N) returns the complex conjugate of
the textbook inverse DFT: real parts agree exactly, imaginary parts are
negated.  (The two coincide exactly when the textbook inverse DFT is
real, e.g. for conjugate-symmetric spectra.) -/
theorem claim_C1_amended (X : ComplexArray) (K : ℕ) (hr : X.real.length = 2 ^ K)
    (hi2 : X.imag.length = 2 ^ K) :
    ∃ Y : ComplexArray, ifft X = Except.ok Y ∧
      ∀ n, n < 2 ^ K →
        Y.real.getD n 0 = (idft (2 ^ K) (toSamples X) n).re ∧
        Y.imag.getD n 0 = -(idft (2 ^ K) (toSamples X) n).im := by
  refine ⟨_, ifft_spec X K hr hi2, ?_⟩
  intro n hn
  exact ⟨getD_map_range _ _ _ _ hn, getD_map_range _ _ _ _ hn⟩

theorem claim_C1_amended_witness :
    (([0, 0] : List ℝ).length = 2 ^ 1 ∧ ([1, 0] : List ℝ).length = 2 ^ 1)
    ∧ ∃ Y : ComplexArray, ifft ⟨[0, 0], [1, 0]⟩ = Except.ok Y ∧
        ∀ n, n < 2 ^ 1 →
          Y.real.getD n 0 = (idft (2 ^ 1) (toSamples ⟨[0, 0], [1, 0]⟩) n).re ∧
          Y.imag.getD n 0 = -(idft (2 ^ 1) (toSamples ⟨[0, 0], [1, 0]⟩) n).im :=
  ⟨⟨rfl, rfl⟩, claim_C1_amended ⟨[0, 0], [1, 0]⟩ 1 rfl rfl⟩

/-- C4: round trip — the inverse transform of the forward transform of a
real power-of-two-length signal reconstructs the signal exactly in the
real-arithmetic model, and equalizing its spectrum with the single
full-range unit band (0, Fs/2, 1) returns the original signal as the time
domain and the untouched spectrum as the frequency domain. -/
theorem claim_C4 (x : List ℝ) (K : ℕ) (hx : x.length = 2 ^ K) (Fs : ℚ) :
    ∃ F : ComplexArray, fftReal x = Except.ok F ∧
      ifft F = Except.ok ⟨x, List.replicate (2 ^ K) 0⟩ ∧
      ∃ td fd, equalizer F [(0, Fs / 2, 1)] Fs = Except.ok (td, fd)
        ∧ td = x ∧ fd = F := by
  obtain ⟨F, h1, hr, hi2, h2⟩ := fftReal_ifft x K hx
  refine ⟨F, h1, h2, ?_⟩
  have h3 := equalizer_unit_band F K hr hi2 (Fs / 2) Fs
  refine ⟨_, _, h3, ?_, rfl⟩
  have h4 := ifft_spec F K hr hi2
  rw [h2] at h4
  have h5 := Except.ok.inj h4
  exact (congrArg ComplexArray.real h5).symm

theorem claim_C4_witness :
    ([1, 2] : List ℝ).length = 2 ^ 1
    ∧ ∃ F : ComplexArray, fftReal [1, 2] = Except.ok F ∧
        ifft F = Except.ok ⟨[1, 2], List.replicate (2 ^ 1) 0⟩ ∧
        ∃ td fd, equalizer F [(0, (2 : ℚ) / 2, 1)] 2 = Except.ok (td, fd)
          ∧ td = [1, 2] ∧ fd = F :=
  ⟨rfl, claim_C4 [1, 2] 1 rfl 2⟩

/-- C8 counterexample: with frame length 3 (not a power of two) and hop
1, a signal of length 3 should produce floor((3-3)/1)+1 = 1 frame by the
claim, but computeSTFT propagates the transform-length error instead of
producing any frame. -/
theorem claim_C8_counterexample :
    computeSTFT [0, 0, 0] 3 1 = Except.error "Input size must be a power of 2."
    ∧ 3 ≤ ([0, 0, 0] : List ℝ).length
    ∧ (([0, 0, 0] : List ℝ).length - 3) / 1 + 1 = 1 := by
  have hfl : (stftFrame [0, 0, 0] 3 0).real.length = 3 :=
    stftFrame_real_length _ 3 0 (by norm_num)
  have hcond : jsPow2Check (stftFrame [0, 0, 0] 3 0).real.length = false := by
    rw [hfl]
    unfold jsPow2Check
    rw [isPow2_three]
    rfl
  have herr : fft (stftFrame [0, 0, 0] 3 0)
      = Except.error "Input size must be a power of 2." := by
    unfold fft
    rw [if_pos hcond]
  refine ⟨?_, by norm_num, by norm_num⟩
  unfold computeSTFT
  have hstarts : frameStarts ([0, 0, 0] : List ℝ).length 3 1 = [0] := rfl
  rw [hstarts]
  simp only [List.mapM_cons, List.mapM_nil, herr]
  rfl

/-- C8 (amended): for every signal, hop H > 0 and frame length F that the
transform accepts (F = 0 or a power of two), computeSTFT succeeds with
exactly floor((L-F)/H)+1 frames when L ≥ F and zero frames when L < F,
each frame holding one quantized value for exactly the first F/2 bins;
for other frame lengths the transform-length error propagates instead. -/
theorem claim_C8_amended (data : List ℝ) (F H : ℕ) (hH : 0 < H)
    (hF : F = 0 ∨ ∃ k, F = 2 ^ k) :
    ∃ slices, computeSTFT data F H = Except.ok slices ∧
      slices.length = (if F ≤ data.length then (data.length - F) / H + 1 else 0) ∧
      ∀ s ∈ slices, s.length = F / 2 := by
  obtain ⟨slices, h1, h2, h3⟩ := computeSTFT_ok data F H hF
  exact ⟨slices, h1, by rw [h2, frameStarts_length data.length F H hH], h3⟩

theorem claim_C8_amended_witness :
    (0 < 1 ∧ ((2 : ℕ) = 0 ∨ ∃ k, (2 : ℕ) = 2 ^ k))
    ∧ ∃ slices, computeSTFT [0, 0] 2 1 = Except.ok slices ∧
        slices.length
          = (if 2 ≤ ([0, 0] : List ℝ).length
              then (([0, 0] : List ℝ).length - 2) / 1 + 1 else 0) ∧
        ∀ s ∈ slices, s.length = 2 / 2 :=
  ⟨⟨by norm_num, Or.inr ⟨1, rfl⟩⟩,
    claim_C8_amended [0, 0] 2 1 (by norm_num) (Or.inr ⟨1, rfl⟩)⟩

end SignalEq
